import Mathlib

/-!
Verification of the query composition and category/selection state engine of
the dork-builder repository.  The definitions below are shallow embeddings of
`dork_builder/query_builder.py`, `dork_builder/repository.py` and
`dork_builder/viewmodels.py`; theorems settle the frozen claims about them.
-/

namespace DorkBuilder

/-! ## String utilities (Python `str.strip`, `{name}` substitution) -/

/-- Characters matched by the character class `[A-Za-z0-9_]` of `VAR_RE`. -/
def isIdentChar (c : Char) : Bool :=
  (('A' ≤ c && c ≤ 'Z') || ('a' ≤ c && c ≤ 'z') || ('0' ≤ c && c ≤ '9') || c = '_')

/-- Whitespace characters removed by Python `str.strip()`. -/
def isPySpace (c : Char) : Bool :=
  c = ' ' || c = '\t' || c = '\n' || c = '\r' || c = Char.ofNat 11 || c = Char.ofNat 12

/-- Python `str.strip()` on a character list. -/
def pyStripChars (l : List Char) : List Char :=
  ((l.dropWhile isPySpace).reverse.dropWhile isPySpace).reverse

/-- Python `str.strip()`. -/
def pyStrip (s : String) : String := ⟨pyStripChars s.data⟩

/-- Python `str.capitalize()` restricted to ASCII: first character upper-cased,
the rest lower-cased. -/
def pyCapitalize (s : String) : String :=
  match s.data with
  | [] => ""
  | c :: rest => ⟨c.toUpper :: rest.map Char.toLower⟩

/-- `_VAR_RE.sub`: scan for `\x7bident\x7d` placeholders, replacing each by the
mapped value when the name is present and by the matched text itself (the
literal placeholder) otherwise.  `re.sub` takes the leftmost match, for this
pattern the maximal run of identifier characters followed by a closing brace,
and resumes scanning after the match.  The `fuel` argument only bounds the
recursion; the scan consumes at least one character per step, so any fuel of
at least the list length is exact. -/
def substChars (v : String → Option String) : Nat → List Char → List Char
  | _, [] => []
  | 0, l => l
  | fuel + 1, c :: rest =>
    if c = '{' then
      let run := rest.takeWhile isIdentChar
      match rest.dropWhile isIdentChar with
      | '}' :: tail =>
        if run.isEmpty then c :: substChars v fuel rest
        else
          match v ⟨run⟩ with
          | some val => val.data ++ substChars v fuel tail
          | none => c :: (run ++ '}' :: substChars v fuel tail)
      | _ => c :: substChars v fuel rest
    else c :: substChars v fuel rest

/-- `QueryBuilder._subst`. -/
def subst (v : String → Option String) (s : String) : String :=
  ⟨substChars v s.data.length s.data⟩

/-- Placeholder names found by `VAR_RE.finditer`, in scan order
(used by `AppViewModel._collect_placeholders` / `_rebuild_query`). -/
def scanNames : Nat → List Char → List String
  | _, [] => []
  | 0, _ => []
  | fuel + 1, c :: rest =>
    if c = '{' then
      let run := rest.takeWhile isIdentChar
      match rest.dropWhile isIdentChar with
      | '}' :: tail =>
        if run.isEmpty then scanNames fuel rest
        else (⟨run⟩ : String) :: scanNames fuel tail
      | _ => scanNames fuel rest
    else scanNames fuel rest

/-! ## Query builder (`query_builder.py`) -/

/-- A part of the query: `Tok`, `Not(Tok)`, or `OrGroup([Tok])`
(`models.py`). -/
inductive Part
  | tok (text : String)
  | notTok (text : String)
  | orGroup (texts : List String)
deriving DecidableEq

/-- Rendering of a single part inside `QueryBuilder.build`. -/
def renderPart (v : String → Option String) : Part → String
  | .tok t => subst v t
  | .notTok t => "-" ++ subst v t
  | .orGroup ts => "(" ++ String.intercalate " OR " (ts.map (subst v)) ++ ")"

/-- `QueryBuilder.build`: render parts in order, then
`" ".join(filter(None, (s.strip() for s in out)))`. -/
def build (parts : List Part) (v : String → Option String) : String :=
  String.intercalate " "
    (((parts.map (renderPart v)).map pyStrip).filter (fun s => ¬ s = ""))

/-- Modelled from the spec sentence of claim C6 (not from the source): each
part renders as described and a part is dropped exactly when its substitution
result is the empty string; no stripping of the rendered parts. -/
def buildClaimed (parts : List Part) (v : String → Option String) : String :=
  String.intercalate " "
    ((parts.map (renderPart v)).filter (fun s => ¬ s = ""))

/-- Amended description of `build`: each part's rendering is stripped of
surrounding whitespace and dropped when blank after stripping. -/
def buildAmended (parts : List Part) (v : String → Option String) : String :=
  String.intercalate " "
    ((parts.map (fun p => pyStrip (renderPart v p))).filter (fun s => ¬ s = ""))

/-! ## Data model (`models.py`) -/

/-- `DorkCategory` dataclass; `tooltips` is a string-keyed dict, modelled as
an association list in insertion order. -/
structure DorkCategory where
  key : String
  label : String
  items : List String
  tooltips : List (String × String)
deriving DecidableEq

/-- `Profile` dataclass. -/
structure Profile where
  name : String
  category : String
  checked : List Int
  vars : List (String × String)
  not_indices : List Int
  or_groups : List (List Int)
deriving DecidableEq

/-! ## Persisted document model (`repository.py`)

The backing store holds one JSON document.  `PyJson` models the values
`json.load` can produce (integer numerals suffice for this repository). -/

inductive PyJson
  | null
  | pybool (b : Bool)
  | num (n : Int)
  | str (s : String)
  | arr (elems : List PyJson)
  | obj (entries : List (String × PyJson))

/-- Python truthiness of a loaded JSON value. -/
def pyTruthy : PyJson → Bool
  | .null => false
  | .pybool b => b
  | .num n => ¬ n = 0
  | .str s => ¬ s = ""
  | .arr [] => false
  | .arr (_ :: _) => true
  | .obj [] => false
  | .obj (_ :: _) => true

/-- `dict.get` on a JSON object (JSON objects have unique keys, so first
match suffices). -/
def objGet (entries : List (String × PyJson)) (k : String) : Option PyJson :=
  match entries.find? (fun e => e.1 = k) with
  | some e => some e.2
  | none => none

/-- Python `repr` of a loaded JSON value (scalar cases exact; composites
follow Python's comma-space layout with single-quoted strings). -/
def pyRepr : PyJson → String
  | .null => "None"
  | .pybool true => "True"
  | .pybool false => "False"
  | .num n => toString n
  | .str s => "'" ++ s ++ "'"
  | .arr l => "[" ++ String.intercalate ", " (l.attach.map (fun e => pyRepr e.1)) ++ "]"
  | .obj l =>
    "\x7b" ++
      String.intercalate ", "
        (l.attach.map (fun e => "'" ++ e.1.1 ++ "': " ++ pyRepr e.1.2)) ++
    "\x7d"
decreasing_by
  · have := e.2; simp only [PyJson.arr.sizeOf_spec]
    calc sizeOf e.1 < sizeOf l := List.sizeOf_lt_of_mem this
      _ < 1 + sizeOf l := by omega
  · have h2 := List.sizeOf_lt_of_mem e.2
    simp only [PyJson.obj.sizeOf_spec]
    have h3 : sizeOf e.1.2 < sizeOf e.1 := by
      obtain ⟨a, b⟩ := e.1; simp only [Prod.mk.sizeOf_spec]; omega
    omega

/-- Python `str` of a loaded JSON value. -/
def pyStr : PyJson → String
  | .str s => s
  | j => pyRepr j

/-- Python `int(x)` on a digit string with optional sign and surrounding
whitespace. -/
def parseIntStr (s : String) : Option Int :=
  let l := pyStripChars s.data
  let core : List Char × Bool :=
    match l with
    | '-' :: rest => (rest, true)
    | '+' :: rest => (rest, false)
    | _ => (l, false)
  if core.1 = [] then none
  else if core.1.all Char.isDigit then
    let n : Int := core.1.foldl (fun acc c => acc * 10 + (c.toNat - '0'.toNat : Int)) 0
    some (if core.2 then -n else n)
  else none

/-- Python `int(x)` on a loaded JSON value; `.error` models the raised
`TypeError`/`ValueError`. -/
def pyInt : PyJson → Except Unit Int
  | .num n => .ok n
  | .pybool b => .ok (if b then 1 else 0)
  | .str s =>
    match parseIntStr s with
    | some n => .ok n
    | none => .error ()
  | _ => .error ()

/-- Python iteration (`list(x)`, `for x in y`): arrays yield elements,
strings yield one-character strings, dicts yield their keys; iterating any
other value raises `TypeError`. -/
def pyIter : PyJson → Except Unit (List PyJson)
  | .arr l => .ok l
  | .str s => .ok (s.data.map (fun c => .str ⟨[c]⟩))
  | .obj l => .ok (l.map (fun e => .str e.1))
  | _ => .error ()

/-- Membership test `"categories" in data` for each Python type: key lookup
for dicts, element equality for lists, substring search for strings; `in`
raises `TypeError` on numbers and booleans. -/
def pyContainsKey : PyJson → String → Except Unit Bool
  | .obj l, s => .ok (l.any (fun e => e.1 = s))
  | .arr l, s =>
    .ok (l.any (fun j => match j with | .str t => t = s | _ => false))
  | .str t, s => .ok (decide (List.IsInfix s.data t.data))
  | _, _ => .error ()

/-- The `DEFAULTS` table of `repository.py`, instantiated into categories as
`DorkCategory(k, k.capitalize(), v[:])` by `DorkRepository.load`. -/
def defaultCategories : List DorkCategory :=
  [⟨"files", "Files", ["ext:pdf", "ext:docx", "ext:xlsx", "ext:txt"], []⟩,
   ⟨"content", "Content",
     ["intitle:\"index of\"", "inurl:login", "site:{domain}"], []⟩,
   ⟨"secrets", "Secrets",
     ["filetype:env", "password", "\"API Key\"", "inurl:config"], []⟩]

/-- Python dict insertion: replace the value of an existing key in place,
append a fresh key at the end. -/
def dictInsert (l : List (String × PyJson)) (k : String) (v : PyJson) :
    List (String × PyJson) :=
  if l.any (fun e => e.1 = k) then
    l.map (fun e => if e.1 = k then (k, v) else e)
  else l ++ [(k, v)]

/-- Python dict built by a comprehension over a list of key-value pairs
(later occurrences of a key overwrite earlier ones, keeping their slot). -/
def dictOf (l : List (String × PyJson)) : List (String × PyJson) :=
  l.foldl (fun acc e => dictInsert acc e.1 e.2) []

/-- The per-category value written by `DorkRepository.save`. -/
def catEntry (c : DorkCategory) : String × PyJson :=
  (c.key, .obj
    [("label", .str c.label),
     ("items", .arr (c.items.map .str)),
     ("tooltips", .obj (c.tooltips.map (fun t => (t.1, .str t.2))))])

/-- The per-profile value written by `DorkRepository.save`. -/
def profFields (p : Profile) : List (String × PyJson) :=
  [("category", .str p.category),
   ("checked", .arr (p.checked.map .num)),
   ("vars", .obj (p.vars.map (fun t => (t.1, .str t.2)))),
   ("not_indices", .arr (p.not_indices.map .num)),
   ("or_groups", .arr (p.or_groups.map (fun g => .arr (g.map .num))))]

/-- One profile table entry as written by `DorkRepository.save`. -/
def profEntry (np : String × Profile) : String × PyJson :=
  (np.1, .obj (profFields np.2))

/-- `DorkRepository.save`: the structured document written to the backing
store.  Categories pass through a dict comprehension keyed by `c.key`;
profiles are already a dict keyed by name. -/
def repoSave (cats : List DorkCategory) (profs : List (String × Profile)) :
    PyJson :=
  .obj
    [("categories", .obj (dictOf (cats.map catEntry))),
     ("profiles", .obj (profs.map profEntry))]

/-- Legacy flat shape: list-valued entries become categories with
auto-capitalized labels, no tooltips. -/
def legacyCategories (entries : List (String × PyJson)) : List DorkCategory :=
  entries.filterMap (fun e =>
    match e.2 with
    | .arr l => some ⟨e.1, pyCapitalize e.1, l.map pyStr, []⟩
    | _ => none)

/-- One category of the structured shape:
`label = (obj or \x7b\x7d).get("label") or key.capitalize()`,
`items = list((obj or \x7b\x7d).get("items") or [])`,
`tips = dict((obj or \x7b\x7d).get("tooltips") or \x7b\x7d)`. -/
def parseCategory (key : String) (j : PyJson) : Except Unit DorkCategory := do
  let entries ←
    if pyTruthy j then
      match j with
      | .obj l => Except.ok l
      | _ => Except.error ()
    else Except.ok []
  let labelJ := (objGet entries "label").getD .null
  let label := if pyTruthy labelJ then pyStr labelJ else pyCapitalize key
  let itemsJ := (objGet entries "items").getD .null
  let items ← if pyTruthy itemsJ then pyIter itemsJ else Except.ok []
  let tipsJ := (objGet entries "tooltips").getD .null
  let tips ←
    if pyTruthy tipsJ then
      match tipsJ with
      | .obj l => Except.ok (l.map (fun e => (e.1, pyStr e.2)))
      | _ => Except.error ()
    else Except.ok []
  return ⟨key, label, items.map pyStr, tips⟩

/-- One profile of the structured shape (`obj` already known to be a dict). -/
def parseProfile (name : String) (entries : List (String × PyJson)) :
    Except Unit Profile := do
  let category := pyStr ((objGet entries "category").getD (.str ""))
  let checkedRaw ← pyIter ((objGet entries "checked").getD (.arr []))
  let checked ← checkedRaw.mapM pyInt
  let varsJ := (objGet entries "vars").getD (.obj [])
  let vars ←
    if pyTruthy varsJ then
      match varsJ with
      | .obj l => Except.ok (l.map (fun e => (e.1, pyStr e.2)))
      | _ => Except.error ()
    else Except.ok []
  let notRaw ← pyIter ((objGet entries "not_indices").getD (.arr []))
  let notIdx ← notRaw.mapM pyInt
  let groupsJ := (objGet entries "or_groups").getD (.arr [])
  let groupsRaw ← if pyTruthy groupsJ then pyIter groupsJ else Except.ok []
  let groups ← groupsRaw.mapM (fun g => do
    let l ← pyIter g
    l.mapM pyInt)
  return ⟨name, category, checked, vars, notIdx, groups⟩

/-- `DorkRepository.load`.  `content = none` models an absent backing file,
`content = some none` a file whose bytes `json.load` rejects, and
`content = some (some j)` a file parsing to `j`.  The result carries the
categories, the profile table, and whether the built-in defaults were
persisted (`self.save()`); `.error` models an uncaught exception. -/
def repoLoad (content : Option (Option PyJson)) :
    Except Unit (List DorkCategory × List (String × Profile) × Bool) := do
  let data : PyJson :=
    match content with
    | none => .obj []
    | some none => .obj []
    | some (some j) => j
  if pyTruthy data = false then
    return (defaultCategories, [], true)
  else
    match ← pyContainsKey data "categories" with
    | false =>
      match data with
      | .obj entries => return (legacyCategories entries, [], false)
      | _ => return ([], [], false)
    | true => do
      let entries ←
        match data with
        | .obj l => Except.ok l
        | _ => Except.error ()
      let rawCatsJ := (objGet entries "categories").getD .null
      let rawCats ←
        if pyTruthy rawCatsJ then
          match rawCatsJ with
          | .obj l => Except.ok l
          | _ => Except.error ()
        else Except.ok []
      let cats ← rawCats.mapM (fun e => parseCategory e.1 e.2)
      let rawProfsJ := (objGet entries "profiles").getD .null
      let rawProfs ←
        if pyTruthy rawProfsJ then
          match rawProfsJ with
          | .obj l => Except.ok l
          | _ => Except.error ()
        else Except.ok []
      let profPairs :=
        rawProfs.filterMap (fun e =>
          match e.2 with
          | .obj l => some (e.1, l)
          | _ => none)
      let profs ← profPairs.mapM (fun e => do
        let p ← parseProfile e.1 e.2
        return (e.1, p))
      return (cats, profs, false)

/-! ## Selection / group state engine (`viewmodels.py`) -/

/-- Python list indexing `items[i]`: one negative wrap, `IndexError` (modelled
as `none`) outside `[-len, len)`. -/
def pyGetItem (items : List String) (i : Int) : Option String :=
  if 0 ≤ i ∧ i < (items.length : Int) then items.get? i.toNat
  else if -(items.length : Int) ≤ i ∧ i < 0 then
    items.get? ((items.length : Int) + i).toNat
  else none

/-- Pointwise update of a string-keyed map. -/
def upd {α : Type} (f : String → α) (k : String) (v : α) : String → α :=
  fun x => if x = k then v else f x

/-- The mutable state of `AppViewModel`.  The per-category dicts are total
maps defaulting to the empty set / empty list (`dict.setdefault` /
`dict.get(key, default)` make the absent-key and empty-value states
observably equal). -/
structure AppState where
  categories : List DorkCategory
  currentIndex : Int
  checkedByCat : String → Finset Int
  notByCat : String → Finset Int
  orGroupsByCat : String → List (Finset Int)
  vars : String → Option String
  profiles : List (String × Profile)

/-- `AppViewModel.current_category`. -/
def currentCategory (s : AppState) : Option DorkCategory :=
  if 0 ≤ s.currentIndex ∧ s.currentIndex < (s.categories.length : Int) then
    s.categories.get? s.currentIndex.toNat
  else none

/-! ### `_rebuild_query`

Only its effect on the engine state matters: it looks up `c.items[i]` for
every checked index (raising `IndexError` past the list bounds) and, when no
lookup raises, inserts a default `""` entry for every placeholder name of the
checked fragments that is missing from the variable map. -/

/-- Whether `_rebuild_query` raises `IndexError`. -/
def rebuildRaises (s : AppState) : Bool :=
  match currentCategory s with
  | none => false
  | some c =>
    decide (∃ i ∈ s.checkedByCat c.key, pyGetItem c.items i = none)

/-- Placeholder names of all checked fragments of category `c` (the set of
names `_collect_placeholders` finds over the checked texts). -/
def checkedVarNames (s : AppState) (c : DorkCategory) : Finset String :=
  (s.checkedByCat c.key).biUnion (fun i =>
    (scanNames ((pyGetItem c.items i).getD "").data.length
      ((pyGetItem c.items i).getD "").data).toFinset)

/-- The variable-map side effect of a completed `_rebuild_query`. -/
def rebuildVarsUpdate (s : AppState) : AppState :=
  match currentCategory s with
  | none => s
  | some c =>
    { s with vars := fun k =>
        if k ∈ checkedVarNames s c ∧ (s.vars k).isNone then some ""
        else s.vars k }

/-- Run `_rebuild_query` after a mutation: the second component records
whether it raised (leaving the mutated state behind). -/
def rebuilt (s : AppState) : AppState × Bool :=
  if rebuildRaises s then (s, true) else (rebuildVarsUpdate s, false)

/-! ### Group normalization (`_normalize_groups_for_category`) -/

/-- Inner `for r in merged` loop: union `g` into the first overlapping
entry of `merged`, in place; `none` when no entry overlaps. -/
def placeInto : List (Finset Int) → Finset Int → Option (List (Finset Int))
  | [], _ => none
  | r :: rs, g =>
    if ¬ Disjoint r g then some ((r ∪ g) :: rs)
    else (placeInto rs g).map (fun l => r :: l)

/-- One `for g in groups` pass of the merge loop, carrying `merged` and
`changed`. -/
def onePassAux (acc : List (Finset Int)) (gs : List (Finset Int))
    (changed : Bool) : List (Finset Int) × Bool :=
  match gs with
  | [] => (acc, changed)
  | g :: rest =>
    match placeInto acc g with
    | some m => onePassAux m rest true
    | none => onePassAux (acc ++ [g]) rest changed

/-- One iteration of the `while changed` loop body. -/
def onePass (gs : List (Finset Int)) : List (Finset Int) × Bool :=
  onePassAux [] gs false

/-- The `while changed` loop; each changing pass strictly shrinks the list,
so `gs.length + 1` iterations always reach the fixpoint. -/
def mergeLoop : Nat → List (Finset Int) → List (Finset Int)
  | 0, gs => gs
  | n + 1, gs =>
    match onePass gs with
    | (m, true) => mergeLoop n m
    | (m, false) => m

/-- `_normalize_groups_for_category`: drop sub-2 groups, merge overlapping
groups to a fixpoint, drop sub-2 groups again. -/
def normalizeGroups (gs : List (Finset Int)) : List (Finset Int) :=
  let gs1 := gs.filter (fun g => 2 ≤ g.card)
  (mergeLoop (gs1.length + 1) gs1).filter (fun g => 2 ≤ g.card)

/-! ### Index remap (`_reindex_after_removal`) -/

/-- The `shift` accumulation of `remap_set`: the number of entries of
`removed` below `idx`. -/
def shiftOf (removed : List Int) (idx : Int) : Int :=
  removed.foldl (fun acc r => if r < idx then acc + 1 else acc) 0

/-- `remap_set`: drop members of `removed`, shift the survivors down. -/
def remapSet (removed : List Int) (s : Finset Int) : Finset Int :=
  (s.filter (fun i => ¬ i ∈ removed)).image (fun i => i - shiftOf removed i)

/-- `_reindex_after_removal` on the three per-category index collections. -/
def reindexAfterRemoval (s : AppState) (key : String) (removed : List Int) :
    AppState :=
  { s with
    checkedByCat := upd s.checkedByCat key (remapSet removed (s.checkedByCat key)),
    notByCat := upd s.notByCat key (remapSet removed (s.notByCat key)),
    orGroupsByCat := upd s.orGroupsByCat key
      (((s.orGroupsByCat key).map (remapSet removed)).filter
        (fun g => 2 ≤ g.card)) }

/-! ### Operations of `AppViewModel`

Each operation returns the state it leaves behind and whether the trailing
`_rebuild_query` raised. -/

/-- `toggle_checked`. -/
def toggleChecked (s : AppState) (i : Int) : AppState × Bool :=
  match currentCategory s with
  | none => (s, false)
  | some c =>
    let old := s.checkedByCat c.key
    rebuilt { s with
      checkedByCat := upd s.checkedByCat c.key
        (if i ∈ old then old.erase i else insert i old) }

/-- `set_checked`. -/
def setChecked (s : AppState) (l : List Int) : AppState × Bool :=
  match currentCategory s with
  | none => (s, false)
  | some c =>
    rebuilt { s with checkedByCat := upd s.checkedByCat c.key l.toFinset }

/-- `toggle_not`. -/
def toggleNot (s : AppState) (i : Int) : AppState × Bool :=
  match currentCategory s with
  | none => (s, false)
  | some c =>
    let old := s.notByCat c.key
    rebuilt { s with
      notByCat := upd s.notByCat c.key
        (if i ∈ old then old.erase i else insert i old) }

/-- `make_or_group`. -/
def makeOrGroup (s : AppState) (l : List Int) : AppState × Bool :=
  match currentCategory s with
  | none => (s, false)
  | some c =>
    if l.length < 2 then (s, false)
    else
      rebuilt { s with
        checkedByCat := upd s.checkedByCat c.key
          (s.checkedByCat c.key ∪ l.toFinset),
        orGroupsByCat := upd s.orGroupsByCat c.key
          (normalizeGroups (s.orGroupsByCat c.key ++ [l.toFinset])) }

/-- `clear_groups`. -/
def clearGroups (s : AppState) : AppState × Bool :=
  match currentCategory s with
  | none => (s, false)
  | some c =>
    rebuilt { s with orGroupsByCat := upd s.orGroupsByCat c.key [] }

/-- `add_dork`. -/
def addDork (s : AppState) (text : String) : AppState × Bool :=
  match currentCategory s with
  | none => (s, false)
  | some c =>
    let t := pyStrip text
    if t = "" then (s, false)
    else
      rebuilt { s with
        categories := s.categories.set s.currentIndex.toNat
          { c with items := c.items ++ [t] } }

/-- `rename_dork`. -/
def renameDork (s : AppState) (i : Int) (newText : String) : AppState × Bool :=
  match currentCategory s with
  | none => (s, false)
  | some c =>
    if 0 ≤ i ∧ i < (c.items.length : Int) then
      let t := pyStrip newText
      if t = "" ∨ c.items.get? i.toNat = some t then (s, false)
      else
        rebuilt { s with
          categories := s.categories.set s.currentIndex.toNat
            { c with items := c.items.set i.toNat t } }
    else (s, false)

/-- Indices kept by the validity filter `0 <= i < len(c.items)`. -/
def inRange (items : List String) (i : Int) : Prop :=
  0 ≤ i ∧ i < (items.length : Int)

instance (items : List String) (i : Int) : Decidable (inRange items i) :=
  inferInstanceAs (Decidable (_ ∧ _))

/-- Python `sorted` on integer lists (ascending, stable). -/
def pySorted (l : List Int) : List Int := l.insertionSort (· ≤ ·)

/-- The `sorted(set(i for i in indices if 0 <= i < len(items)))` list. -/
def validSorted (items : List String) (l : List Int) : List Int :=
  pySorted ((l.filter (fun i => decide (inRange items i))).dedup)

/-- Deletion `del c.items[i]` over a descending index list. -/
def eraseIdxsDesc (items : List String) (desc : List Nat) : List String :=
  desc.foldl (fun acc i => acc.eraseIdx i) items

/-- `delete_dorks`. -/
def deleteDorks (s : AppState) (l : List Int) : AppState × Bool :=
  match currentCategory s with
  | none => (s, false)
  | some c =>
    if l = [] then (s, false)
    else
      let idxs := validSorted c.items l
      let items' := eraseIdxsDesc c.items (idxs.reverse.map Int.toNat)
      let s1 : AppState :=
        { s with
          categories := s.categories.set s.currentIndex.toNat
            { c with items := items' } }
      rebuilt (reindexAfterRemoval s1 c.key (pySorted l))

/-- Replace the first category satisfying `p` (Python mutates the single
object returned by `next(...)`). -/
def updateFirst (p : DorkCategory → Bool) (f : DorkCategory → DorkCategory) :
    List DorkCategory → List DorkCategory
  | [] => []
  | c :: cs => if p c then f c :: cs else c :: updateFirst p f cs

/-- `move_dorks`. -/
def moveDorks (s : AppState) (srcKey dstKey : String) (l : List Int) :
    AppState × Bool :=
  if srcKey = dstKey ∨ l = [] then (s, false)
  else
    match s.categories.find? (fun c => c.key = srcKey),
          s.categories.find? (fun c => c.key = dstKey) with
    | some src, some _ =>
      let idxs := validSorted src.items l
      let texts := idxs.map (fun i => (src.items.get? i.toNat).getD "")
      let items' := eraseIdxsDesc src.items (idxs.reverse.map Int.toNat)
      let s1 : AppState :=
        { s with
          categories := updateFirst (fun c => c.key = srcKey)
            (fun c => { c with items := items' }) s.categories }
      let s2 := reindexAfterRemoval s1 srcKey idxs
      let s3 : AppState :=
        { s2 with
          categories := updateFirst (fun c => c.key = dstKey)
            (fun c => { c with items := c.items ++ texts }) s2.categories }
      rebuilt s3
    | _, _ => (s, false)

/-- Python `dict(pairs)` lookup: the last binding of a key wins. -/
def dictGet (l : List (String × String)) (k : String) : Option String :=
  match l.reverse.find? (fun e => e.1 = k) with
  | some e => some e.2
  | none => none

/-- `apply_profile`. -/
def applyProfile (s : AppState) (name : String) : AppState × Bool :=
  match s.profiles.find? (fun e => e.1 = name) with
  | none => (s, false)
  | some np =>
    let p := np.2
    let newIndex : Int :=
      match s.categories.findIdx? (fun c => c.key = p.category) with
      | some i => (i : Int)
      | none => s.currentIndex
    rebuilt { s with
      currentIndex := newIndex,
      checkedByCat := upd s.checkedByCat p.category p.checked.toFinset,
      notByCat := upd s.notByCat p.category p.not_indices.toFinset,
      orGroupsByCat := upd s.orGroupsByCat p.category
        (p.or_groups.map (fun g => g.toFinset)),
      vars := dictGet p.vars }

/-- `delete_profile` (no `_rebuild_query` call). -/
def deleteProfile (s : AppState) (name : String) : AppState :=
  { s with profiles := s.profiles.filter (fun e => ¬ e.1 = name) }

/-! ### The mutating operations of claim C1 as a step relation -/

/-- The engine's mutating operations named by claim C1. -/
inductive Op
  | togCheck (i : Int)
  | setCheck (l : List Int)
  | togNot (i : Int)
  | mkGroup (l : List Int)
  | clrGroups
  | addD (t : String)
  | renameD (i : Int) (t : String)
  | deleteD (l : List Int)
  | moveD (src dst : String) (l : List Int)

/-- Dispatch one operation. -/
def step (op : Op) (s : AppState) : AppState :=
  match op with
  | .togCheck i => (toggleChecked s i).1
  | .setCheck l => (setChecked s l).1
  | .togNot i => (toggleNot s i).1
  | .mkGroup l => (makeOrGroup s l).1
  | .clrGroups => (clearGroups s).1
  | .addD t => (addDork s t).1
  | .renameD i t => (renameDork s i t).1
  | .deleteD l => (deleteDorks s l).1
  | .moveD src dst l => (moveDorks s src dst l).1

/-- Run a sequence of operations. -/
def run (ops : List Op) (s : AppState) : AppState :=
  ops.foldl (fun t op => step op t) s

/-- Invariant I1: every index in `checked`, `negated`, or any OR-group of a
live category is a valid position in its `items`. -/
def IndexValid (s : AppState) : Prop :=
  ∀ c ∈ s.categories,
    (∀ i ∈ s.checkedByCat c.key, 0 ≤ i ∧ i < (c.items.length : Int)) ∧
    (∀ i ∈ s.notByCat c.key, 0 ≤ i ∧ i < (c.items.length : Int)) ∧
    (∀ g ∈ s.orGroupsByCat c.key, ∀ i ∈ g, 0 ≤ i ∧ i < (c.items.length : Int))

/-- Invariant I3: category keys are unique. -/
def KeysNodup (s : AppState) : Prop :=
  (s.categories.map (fun c => c.key)).Nodup

/-- In-bounds arguments for the index-taking selection operations, and
duplicate-free in-bounds indices for `delete_dorks`. -/
def ValidArgs (op : Op) (s : AppState) : Prop :=
  match op, currentCategory s with
  | .togCheck i, some c => inRange c.items i
  | .togNot i, some c => inRange c.items i
  | .setCheck l, some c => ∀ i ∈ l, inRange c.items i
  | .mkGroup l, some c => ∀ i ∈ l, inRange c.items i
  | .deleteD l, some c => l.Nodup ∧ ∀ i ∈ l, inRange c.items i
  | _, _ => True

/-- Validity of each operation of a sequence, at the state it runs in. -/
def ValidSeq : List Op → AppState → Prop
  | [], _ => True
  | op :: rest, s => ValidArgs op s ∧ ValidSeq rest (step op s)

/-- Decidability of the per-operation argument validity. -/
instance decValidArgs (op : Op) (s : AppState) : Decidable (ValidArgs op s) := by
  unfold ValidArgs
  rcases hc : currentCategory s with _ | c <;>
    rcases op with i | l | i | l | _ | t | ⟨i, t⟩ | l | ⟨src, dst, l⟩ <;>
    first
      | exact inferInstanceAs (Decidable True)
      | exact inferInstanceAs (Decidable (inRange c.items i))
      | exact inferInstanceAs (Decidable (∀ j ∈ l, inRange c.items j))
      | exact inferInstanceAs (Decidable (l.Nodup ∧ ∀ j ∈ l, inRange c.items j))

instance decValidSeq : (ops : List Op) → (s : AppState) → Decidable (ValidSeq ops s)
  | [], _ => isTrue trivial
  | op :: rest, s =>
    have : Decidable (ValidSeq rest (step op s)) := decValidSeq rest (step op s)
    inferInstanceAs (Decidable (ValidArgs op s ∧ ValidSeq rest (step op s)))

instance decIndexValid (s : AppState) : Decidable (IndexValid s) := by
  unfold IndexValid; infer_instance

instance decKeysNodup (s : AppState) : Decidable (KeysNodup s) := by
  unfold KeysNodup; infer_instance

/-- A finite set grown from the group list `gs` by repeatedly merging
overlapping members: exactly the connected unions the normalization loop can
build. -/
inductive Grown (gs : List (Finset Int)) : Finset Int → Prop
  | base (g : Finset Int) : g ∈ gs → Grown gs g
  | merge (a b : Finset Int) : Grown gs a → Grown gs b → ¬ Disjoint a b →
      Grown gs (a ∪ b)

/-- The characterization of a correctly normalized group list for inputs
`gs`: members are overlap-connected unions of inputs, every input lies
inside some member, and members are pairwise disjoint and nonempty.  These
conditions determine the members uniquely (the connected components of the
overlap graph), so any procedure satisfying them agrees with the source's
merge loop regardless of merge order. -/
def GroupResolution (gs L : List (Finset Int)) : Prop :=
  (∀ o ∈ L, Grown gs o) ∧ (∀ g ∈ gs, ∃ o ∈ L, g ⊆ o) ∧
    L.Pairwise Disjoint ∧ ∀ o ∈ L, o.Nonempty

/-- Position filter: keep the elements whose (0-based) position, offset by
`o`, is not in `R` — the order-preserving meaning of deleting the positions
`R`. -/
def keepNonRemoved (o : Nat) (R : List Nat) : List String → List String
  | [] => []
  | x :: xs =>
    if o ∈ R then keepNonRemoved (o + 1) R xs
    else x :: keepNonRemoved (o + 1) R xs

/-! ### Spec-side remap and concrete example states -/

/-- Modelled from the spec wording of claim C4 (for comparison with the
source's `remapSet`): each surviving index `i` not in `removed` becomes
`i - count(r in removed : r < i)`; members of `removed` are dropped. -/
def remapSpec (removed : List Int) (s : Finset Int) : Finset Int :=
  (s.filter (fun i => ¬ i ∈ removed)).image
    (fun i => i - (removed.countP (fun r => decide (r < i)) : Int))

/-- Example state: one category `"k"` with items `["a","b","c","d"]` and
checked `{1, 3}`. -/
def exState : AppState :=
  { categories := [⟨"k", "K", ["a", "b", "c", "d"], []⟩],
    currentIndex := 0,
    checkedByCat := fun _ => {1, 3},
    notByCat := fun _ => ∅,
    orGroupsByCat := fun _ => [],
    vars := fun _ => none,
    profiles := [] }

/-- Example state with a profile whose category key matches no live
category. -/
def staleState : AppState :=
  { categories := [⟨"k", "K", ["a"], []⟩],
    currentIndex := 0,
    checkedByCat := fun _ => ∅,
    notByCat := fun _ => ∅,
    orGroupsByCat := fun _ => [],
    vars := fun _ => none,
    profiles := [("p", ⟨"p", "gone", [0], [("x", "1")], [], []⟩)] }

/-- Example state with two categories, for the cross-category move of P9. -/
def moveState : AppState :=
  { categories := [⟨"a", "A", ["x", "y"], []⟩, ⟨"b", "B", ["z"], []⟩],
    currentIndex := 0,
    checkedByCat := fun k => if k = "a" then {0} else ∅,
    notByCat := fun _ => ∅,
    orGroupsByCat := fun _ => [],
    vars := fun _ => none,
    profiles := [] }

/-! ## Helper lemmas -/

theorem takeWhile_ident_exact :
    ∀ (l : List Char), (∀ c ∈ l, isIdentChar c = true) → ∀ (t : List Char),
      (l ++ '}' :: t).takeWhile isIdentChar = l ∧
        (l ++ '}' :: t).dropWhile isIdentChar = '}' :: t := by
  intro l
  induction l with
  | nil =>
    intro _ t
    have hb : isIdentChar '}' = false := by decide
    constructor <;> simp [List.takeWhile_cons, List.dropWhile_cons, hb]
  | cons c cs ih =>
    intro h t
    have hc : isIdentChar c = true := h c (by simp)
    have hr := ih (fun d hd => h d (by simp [hd])) t
    constructor
    · simp [List.takeWhile_cons, hc, hr.1]
    · simp [List.dropWhile_cons, hc, hr.2]

theorem string_mk_data (s : String) : (⟨s.data⟩ : String) = s := by
  cases s; rfl

theorem subst_placeholder (v : String → Option String) (name : String)
    (hne : ¬ name = "") (hid : ∀ c ∈ name.data, isIdentChar c = true) :
    subst v ("\x7b" ++ name ++ "\x7d") =
      match v name with
      | some val => val
      | none => "\x7b" ++ name ++ "\x7d" := by
  have hdata : ("\x7b" ++ name ++ "\x7d").data = '{' :: (name.data ++ ['}']) := by
    simp [String.data_append]
  have htw := takeWhile_ident_exact name.data hid []
  have hnil : ¬ name.data = [] := by
    intro h0
    apply hne
    cases name
    simp at h0
    simp [h0]
  unfold subst
  rw [hdata]
  have hlen : ('{' :: (name.data ++ ['}'])).length = (name.data.length + 1) + 1 := by
    simp
  rw [hlen]
  rw [substChars]
  simp only [if_pos rfl]
  rw [htw.1, htw.2]
  have hemp : name.data.isEmpty = false := by
    cases h0 : name.data
    · exact absurd h0 hnil
    · rfl
  simp only [if_true, hemp, Bool.false_eq_true, if_false, string_mk_data]
  cases hv : v name with
  | some val =>
    simp only [substChars]
    apply congrArg
    simp
  | none =>
    simp only [substChars]
    rw [hdata.symm]

/-! ## Claim C6 -/

/-- C6 counterexample: `build` strips each rendered part before joining, so a
token whose substituted text carries trailing whitespace renders differently
from the claim's description (`"x "` becomes `"x"`). -/
theorem c6_counterexample :
    ¬ build [Part.tok "x "] (fun _ => none) =
        buildClaimed [Part.tok "x "] (fun _ => none) := by
  decide

/-- C6 (amended): `build` renders each part in order (plain token as its
substituted text, negated token as `-` plus substituted text, OR-group as the
parenthesized ` OR `-join), then strips each rendered part of surrounding
whitespace, drops the parts that are blank after stripping, and joins the
rest with single spaces; substitution replaces each well-formed
`\x7bidentifier\x7d` placeholder with the mapped value when the name is
present and leaves the placeholder text literally unchanged otherwise. -/
theorem c6_amended :
    (∀ (parts : List Part) (v : String → Option String),
      build parts v = buildAmended parts v) ∧
    (∀ (v : String → Option String) (name : String), ¬ name = "" →
      (∀ c ∈ name.data, isIdentChar c = true) →
      subst v ("\x7b" ++ name ++ "\x7d") =
        match v name with
        | some val => val
        | none => "\x7b" ++ name ++ "\x7d") ∧
    subst (fun s => if s = "domain" then some "test.com" else none)
        "site:{domain}" = "site:test.com" ∧
    subst (fun _ => none) "site:{domain}" = "site:{domain}" := by
  refine ⟨?_, subst_placeholder, by decide, by decide⟩
  intro parts v
  simp only [build, buildAmended, List.map_map]
  rfl

/-- C6 witness: the amended theorem applied at the fragment of P7 with the
variable map lacking `domain`. -/
theorem c6_amended_witness :
    subst (fun _ => none) ("\x7b" ++ "domain" ++ "\x7d") =
      "\x7b" ++ "domain" ++ "\x7d" :=
  c6_amended.2.1 (fun _ => none) "domain" (by decide) (by decide)

/-! ## Claim C9 -/

/-- C9 counterexample: a backing file whose content is the valid JSON
document `5` parses to a truthy number; `"categories" not in data` then
raises `TypeError`, so `load()` is not exception-free. -/
theorem c9_counterexample :
    repoLoad (some (some (PyJson.num 5))) = Except.error () := by
  rfl

/-- C9 (amended): when the backing file is absent, its bytes are not valid
JSON, or the parsed document is falsy (empty dict, empty list, empty string,
`0`, `false`, `null`), `load()` treats the content as empty: it returns the
built-in default categories with an empty profile table and persists them
immediately, raising nothing.  A truthy non-dict document is not handled
this way: a number or `true` raises `TypeError` from the `"categories"`
membership test; a truthy string or list in which that test does not find
`"categories"` (substring search for a string, element equality for a list)
takes the legacy path and yields an empty category list without writing
defaults; a truthy string or list in which it does find `"categories"`
enters the structured branch, where `data.get` raises `AttributeError`. -/
theorem c9_amended :
    (∀ content, (content = none ∨ content = some none ∨
        ∃ j, content = some (some j) ∧ pyTruthy j = false) →
      repoLoad content = Except.ok (defaultCategories, [], true)) ∧
    (∀ i : Int, ¬ i = 0 →
      repoLoad (some (some (PyJson.num i))) = Except.error ()) ∧
    repoLoad (some (some (PyJson.pybool true))) = Except.error () ∧
    (∀ s : String, ¬ s = "" →
      pyContainsKey (PyJson.str s) "categories" = Except.ok false →
      repoLoad (some (some (PyJson.str s))) = Except.ok ([], [], false)) ∧
    (∀ l : List PyJson, ¬ l = [] →
      pyContainsKey (PyJson.arr l) "categories" = Except.ok false →
      repoLoad (some (some (PyJson.arr l))) = Except.ok ([], [], false)) ∧
    (∀ s : String,
      pyContainsKey (PyJson.str s) "categories" = Except.ok true →
      repoLoad (some (some (PyJson.str s))) = Except.error ()) ∧
    (∀ l : List PyJson,
      pyContainsKey (PyJson.arr l) "categories" = Except.ok true →
      repoLoad (some (some (PyJson.arr l))) = Except.error ()) := by
  refine ⟨?_, ?_, ?_, ?_, ?_, ?_, ?_⟩
  · intro content h
    rcases h with h | h | ⟨j, hj, ht⟩
    · subst h; rfl
    · subst h; rfl
    · subst hj
      simp [repoLoad, ht]
      rfl
  · intro i hi
    have ht : pyTruthy (PyJson.num i) = true := decide_eq_true hi
    unfold repoLoad
    dsimp only
    rw [ht, if_neg (by decide)]
    rfl
  · rfl
  · intro s hs hmem
    have ht : pyTruthy (PyJson.str s) = true := decide_eq_true hs
    unfold repoLoad
    dsimp only
    rw [ht, if_neg (by decide), hmem]
    rfl
  · intro l hl hmem
    have ht : pyTruthy (PyJson.arr l) = true := by
      cases l with
      | nil => exact absurd rfl hl
      | cons a as => rfl
    unfold repoLoad
    dsimp only
    rw [ht, if_neg (by decide), hmem]
    rfl
  · intro s hmem
    by_cases hs : s = ""
    · exfalso
      subst hs
      rw [show pyContainsKey (PyJson.str "") "categories" =
        Except.ok false from rfl] at hmem
      cases hmem
    · have ht : pyTruthy (PyJson.str s) = true := decide_eq_true hs
      unfold repoLoad
      dsimp only
      rw [ht, if_neg (by decide), hmem]
      rfl
  · intro l hmem
    cases l with
    | nil =>
      exfalso
      rw [show pyContainsKey (PyJson.arr []) "categories" =
        Except.ok false from rfl] at hmem
      cases hmem
    | cons a as =>
      have ht : pyTruthy (PyJson.arr (a :: as)) = true := rfl
      unfold repoLoad
      dsimp only
      rw [ht, if_neg (by decide), hmem]
      rfl

/-- C9 witness: the amended theorem applied to the empty-string content
(defaults written), a plain string (legacy path, empty result), and a string
and a list containing `"categories"` (both raise). -/
theorem c9_amended_witness :
    repoLoad (some (some (PyJson.str ""))) =
      Except.ok (defaultCategories, [], true) ∧
    repoLoad (some (some (PyJson.str "no-match"))) =
      Except.ok ([], [], false) ∧
    repoLoad (some (some (PyJson.str "my categories dump"))) =
      Except.error () ∧
    repoLoad (some (some (PyJson.arr [PyJson.str "categories"]))) =
      Except.error () :=
  ⟨c9_amended.1 (some (some (PyJson.str ""))) (Or.inr (Or.inr ⟨_, rfl, rfl⟩)),
   c9_amended.2.2.2.1 "no-match" (by decide) rfl,
   c9_amended.2.2.2.2.2.1 "my categories dump" rfl,
   c9_amended.2.2.2.2.2.2 [PyJson.str "categories"] rfl⟩

/-! ## Claim C8 -/

theorem parseCategory_ok (c : DorkCategory) (hl : ¬ c.label = "") :
    parseCategory c.key (PyJson.obj
      [("label", .str c.label),
       ("items", .arr (c.items.map .str)),
       ("tooltips", .obj (c.tooltips.map (fun t => (t.1, .str t.2))))]) =
      .ok c := by
  obtain ⟨key, label, items, tips⟩ := c
  simp only at hl ⊢
  have hlt : pyTruthy (.str label) = true := by simp [pyTruthy, hl]
  cases items with
  | nil =>
    cases tips with
    | nil =>
      simp [parseCategory, objGet, pyTruthy, hlt, pyStr, bind, Except.bind, pure, Except.pure]
      exact fun h0 => absurd h0 hl
    | cons t ts =>
      simp [parseCategory, objGet, pyTruthy, hlt, pyStr, pyIter, bind, Except.bind, pure, Except.pure]
      exact ⟨fun h0 => absurd h0 hl,
        (List.map_congr_left (fun a _ => rfl)).trans (List.map_id ts)⟩
  | cons x xs =>
    cases tips with
    | nil =>
      simp [parseCategory, objGet, pyTruthy, hlt, pyStr, pyIter, bind, Except.bind, pure, Except.pure]
      exact ⟨fun h0 => absurd h0 hl,
        (List.map_congr_left (fun a _ => rfl)).trans (List.map_id xs)⟩
    | cons t ts =>
      simp [parseCategory, objGet, pyTruthy, hlt, pyStr, pyIter, bind, Except.bind, pure, Except.pure]
      exact ⟨fun h0 => absurd h0 hl,
        (List.map_congr_left (fun a _ => rfl)).trans (List.map_id xs),
        (List.map_congr_left (fun a _ => rfl)).trans (List.map_id ts)⟩

theorem mapM_pyInt_num : ∀ l : List Int, (l.map PyJson.num).mapM pyInt = Except.ok l := by
  intro l
  induction l with
  | nil => rfl
  | cons a as ih =>
    rw [List.map_cons, List.mapM_cons]
    rw [show pyInt (PyJson.num a) = Except.ok a from rfl, ih]
    rfl

theorem mapM_groups :
    ∀ l : List (List Int),
      (l.map (fun g : List Int => PyJson.arr (List.map PyJson.num g))).mapM
        (fun g => do
          let l2 ← pyIter g
          l2.mapM pyInt) = Except.ok l := by
  intro l
  induction l with
  | nil => rfl
  | cons a as ih =>
    rw [List.map_cons, List.mapM_cons]
    have h1 : (do
        let l2 ← pyIter (PyJson.arr (a.map PyJson.num))
        l2.mapM pyInt) = Except.ok a := by
      rw [show pyIter (PyJson.arr (a.map PyJson.num)) = Except.ok (a.map PyJson.num) from rfl]
      rw [show (do
          let l2 ← Except.ok (a.map PyJson.num)
          l2.mapM pyInt : Except Unit (List Int)) = (a.map PyJson.num).mapM pyInt from rfl]
      exact mapM_pyInt_num a
    rw [h1, ih]
    rfl

theorem parseProfile_ok (name : String) (p : Profile) :
    parseProfile name
      [("category", .str p.category),
       ("checked", .arr (p.checked.map .num)),
       ("vars", .obj (p.vars.map (fun t => (t.1, .str t.2)))),
       ("not_indices", .arr (p.not_indices.map .num)),
       ("or_groups", .arr (p.or_groups.map (fun g => .arr (g.map .num))))] =
      .ok ⟨name, p.category, p.checked, p.vars, p.not_indices, p.or_groups⟩ := by
  obtain ⟨pn, cat, chk, vrs, nots, grps⟩ := p
  simp only
  have hvars : ∀ rest : Except Unit Profile,
      rest = Except.ok ⟨name, cat, chk, vrs, nots, grps⟩ → True := fun _ _ => trivial
  cases vrs with
  | nil =>
    cases grps with
    | nil =>
      show (do
        let checked ← (chk.map PyJson.num).mapM pyInt
        let notIdx ← (nots.map PyJson.num).mapM pyInt
        let groups ← (([] : List (List Int)).map
            (fun g : List Int => PyJson.arr (List.map PyJson.num g))).mapM
          (fun g => do
            let l2 ← pyIter g
            l2.mapM pyInt)
        Except.ok (⟨name, cat, checked, [], notIdx, groups⟩ : Profile)) = _
      rw [mapM_pyInt_num, mapM_pyInt_num, mapM_groups]
      rfl
    | cons g gs =>
      show (do
        let checked ← (chk.map PyJson.num).mapM pyInt
        let notIdx ← (nots.map PyJson.num).mapM pyInt
        let groups ← ((g :: gs).map (fun g2 : List Int => PyJson.arr (List.map PyJson.num g2))).mapM
          (fun g2 => do
            let l2 ← pyIter g2
            l2.mapM pyInt)
        Except.ok (⟨name, cat, checked, [], notIdx, groups⟩ : Profile)) = _
      rw [mapM_pyInt_num, mapM_pyInt_num, mapM_groups]
      rfl
  | cons v vs =>
    cases grps with
    | nil =>
      show (do
        let checked ← (chk.map PyJson.num).mapM pyInt
        let notIdx ← (nots.map PyJson.num).mapM pyInt
        let groups ← (([] : List (List Int)).map
            (fun g : List Int => PyJson.arr (List.map PyJson.num g))).mapM
          (fun g => do
            let l2 ← pyIter g
            l2.mapM pyInt)
        Except.ok (⟨name, cat, checked,
          ((v :: vs).map (fun t : String × String => (t.1, PyJson.str t.2))).map
            (fun e : String × PyJson => (e.1, pyStr e.2)), notIdx, groups⟩ : Profile)) = _
      rw [mapM_pyInt_num, mapM_pyInt_num, mapM_groups]
      rw [show ((v :: vs).map (fun t : String × String => (t.1, PyJson.str t.2))).map
            (fun e : String × PyJson => (e.1, pyStr e.2)) = v :: vs from
        (List.map_map _ _ _).trans
          ((List.map_congr_left (fun a _ => rfl)).trans (List.map_id _))]
      rfl
    | cons g gs =>
      show (do
        let checked ← (chk.map PyJson.num).mapM pyInt
        let notIdx ← (nots.map PyJson.num).mapM pyInt
        let groups ← ((g :: gs).map (fun g2 : List Int => PyJson.arr (List.map PyJson.num g2))).mapM
          (fun g2 => do
            let l2 ← pyIter g2
            l2.mapM pyInt)
        Except.ok (⟨name, cat, checked,
          ((v :: vs).map (fun t : String × String => (t.1, PyJson.str t.2))).map
            (fun e : String × PyJson => (e.1, pyStr e.2)), notIdx, groups⟩ : Profile)) = _
      rw [mapM_pyInt_num, mapM_pyInt_num, mapM_groups]
      rw [show ((v :: vs).map (fun t : String × String => (t.1, PyJson.str t.2))).map
            (fun e : String × PyJson => (e.1, pyStr e.2)) = v :: vs from
        (List.map_map _ _ _).trans
          ((List.map_congr_left (fun a _ => rfl)).trans (List.map_id _))]
      rfl

theorem dictInsert_not_mem (acc : List (String × PyJson)) (k : String) (v : PyJson)
    (h : ¬ k ∈ acc.map Prod.fst) : dictInsert acc k v = acc ++ [(k, v)] := by
  unfold dictInsert
  rw [if_neg]
  intro hx
  rcases List.any_eq_true.mp hx with ⟨e, he, hek⟩
  exact h (List.mem_map.mpr ⟨e, he, of_decide_eq_true hek⟩)

theorem dictOf_aux (l : List (String × PyJson)) :
    ∀ acc : List (String × PyJson), ((acc ++ l).map Prod.fst).Nodup →
      l.foldl (fun a e => dictInsert a e.1 e.2) acc = acc ++ l := by
  induction l with
  | nil => intro acc _; simp
  | cons e rest ih =>
    intro acc h
    rw [List.foldl_cons]
    have hk : ¬ e.1 ∈ acc.map Prod.fst := by
      intro hx
      rw [List.map_append] at h
      rcases List.disjoint_of_nodup_append h hx with h2
      exact h2 (by simp)
    rw [dictInsert_not_mem _ _ _ hk]
    have h2 : (((acc ++ [e]) ++ rest).map Prod.fst).Nodup := by
      rw [List.append_assoc]
      simpa using h
    have := ih (acc ++ [e]) h2
    rw [this, List.append_assoc]
    rfl

theorem dictOf_eq_self (l : List (String × PyJson))
    (h : (l.map Prod.fst).Nodup) : dictOf l = l := by
  have := dictOf_aux l [] (by simpa using h)
  simpa [dictOf] using this

theorem parseCategory_ok_entry (c : DorkCategory) (hl : ¬ c.label = "") :
    parseCategory (catEntry c).1 (catEntry c).2 = Except.ok c :=
  parseCategory_ok c hl

theorem parseProfile_ok_entry (np : String × Profile) :
    parseProfile (np.1, profFields np.2).1 (np.1, profFields np.2).2 =
      Except.ok { np.2 with name := np.1 } :=
  parseProfile_ok np.1 np.2

theorem mapM_parseCats :
    ∀ cats : List DorkCategory, (∀ c ∈ cats, ¬ c.label = "") →
      (cats.map catEntry).mapM (fun e => parseCategory e.1 e.2) =
        Except.ok cats := by
  intro cats
  induction cats with
  | nil => intro _; rfl
  | cons c cs ih =>
    intro h
    rw [List.map_cons, List.mapM_cons]
    rw [parseCategory_ok_entry c (h c (by simp))]
    rw [ih (fun d hd => h d (by simp [hd]))]
    rfl

theorem filterMap_profEntry :
    ∀ l : List (String × Profile),
      (l.map profEntry).filterMap (fun e =>
        match e.2 with
        | PyJson.obj l2 => some (e.1, l2)
        | _ => none) = l.map (fun np => (np.1, profFields np.2)) := by
  intro l
  induction l with
  | nil => rfl
  | cons np nps ih =>
    rw [List.map_cons, List.filterMap_cons, List.map_cons]
    simp only [profEntry]
    rw [ih]

theorem mapM_parseProfs :
    ∀ l : List (String × Profile),
      (l.map (fun np => (np.1, profFields np.2))).mapM (fun e => do
        let p ← parseProfile e.1 e.2
        pure (e.1, p)) =
      Except.ok (l.map (fun np => (np.1, { np.2 with name := np.1 }))) := by
  intro l
  induction l with
  | nil => rfl
  | cons np nps ih =>
    rw [List.map_cons, List.mapM_cons]
    rw [parseProfile_ok_entry np]
    rw [ih]
    rfl

/-- C8 (amended): for every category list with pairwise-distinct keys
(invariant I3) and non-empty labels, and every profile table, saving and then
loading reproduces the same category keys, labels, items in order, tooltips,
and the same `category`, `checked`, `vars`, `not_indices` and `or_groups`
fields of every profile (the loaded `name` field is the table key). -/
theorem c8_roundtrip (cats : List DorkCategory) (profs : List (String × Profile))
    (hkeys : (cats.map (fun c => c.key)).Nodup)
    (hlabels : ∀ c ∈ cats, ¬ c.label = "") :
    repoLoad (some (some (repoSave cats profs))) =
      Except.ok (cats, profs.map (fun np => (np.1, { np.2 with name := np.1 })),
        false) := by
  have hfst : (cats.map catEntry).map Prod.fst = cats.map (fun c => c.key) := by
    rw [List.map_map]; rfl
  have h1 : repoSave cats profs =
      PyJson.obj
        [("categories", PyJson.obj (cats.map catEntry)),
         ("profiles", PyJson.obj (profs.map profEntry))] := by
    unfold repoSave
    rw [dictOf_eq_self _ (by rw [hfst]; exact hkeys)]
  rw [h1]
  cases cats with
  | nil =>
    cases profs with
    | nil => rfl
    | cons np nps =>
      show (do
        let profs2 ← (((np :: nps).map profEntry).filterMap (fun e : String × PyJson =>
            match e.2 with
            | PyJson.obj l2 => some (e.1, l2)
            | _ => none)).mapM (fun e : String × List (String × PyJson) => do
          let p ← parseProfile e.1 e.2
          pure (e.1, p))
        pure (([] : List DorkCategory), profs2, false)) = _
      rw [filterMap_profEntry, mapM_parseProfs]
      rfl
  | cons c cs =>
    cases profs with
    | nil =>
      show (do
        let cats2 ← ((c :: cs).map catEntry).mapM (fun e : String × PyJson => parseCategory e.1 e.2)
        pure (cats2, ([] : List (String × Profile)), false)) = _
      rw [mapM_parseCats _ hlabels]
      rfl
    | cons np nps =>
      show (do
        let cats2 ← ((c :: cs).map catEntry).mapM
          (fun e : String × PyJson => parseCategory e.1 e.2)
        let profs2 ← (((np :: nps).map profEntry).filterMap (fun e : String × PyJson =>
            match e.2 with
            | PyJson.obj l2 => some (e.1, l2)
            | _ => none)).mapM (fun e : String × List (String × PyJson) => do
          let p ← parseProfile e.1 e.2
          pure (e.1, p))
        pure (cats2, profs2, false)) = _
      rw [mapM_parseCats _ hlabels, filterMap_profEntry, mapM_parseProfs]
      rfl

/-- C8 counterexample: a category whose label is the empty string does not
round-trip: `load` rebuilds the label as `key.capitalize()` because of the
`or` fallback, so saving `("k", "")` and loading yields label `"K"`. -/
theorem c8_counterexample :
    repoLoad (some (some (repoSave [⟨"k", "", ["a"], []⟩] []))) =
      Except.ok ([⟨"k", "K", ["a"], []⟩], [], false) ∧
    ¬ (⟨"k", "K", ["a"], []⟩ : DorkCategory) = ⟨"k", "", ["a"], []⟩ :=
  ⟨rfl, by decide⟩

/-- C8 witness: the round-trip theorem applied to one category with items,
a tooltip and a placeholder, and one profile with all fields populated. -/
theorem c8_roundtrip_witness :
    repoLoad (some (some (repoSave
      [⟨"k", "Lbl", ["a", "\x7bx\x7d"], [("a", "hint")]⟩]
      [("p", ⟨"p", "k", [0, 2], [("d", "v")], [1], [[0, 1], [2, 3]]⟩)]))) =
      Except.ok ([⟨"k", "Lbl", ["a", "\x7bx\x7d"], [("a", "hint")]⟩],
        [("p", ⟨"p", "k", [0, 2], [("d", "v")], [1], [[0, 1], [2, 3]]⟩)],
        false) :=
  c8_roundtrip _ _ (by decide) (by decide)

/-! ## Claims C4 and C10: index remap -/

theorem upd_same {α : Type} (f : String → α) (k : String) (v : α) :
    upd f k v k = v := by simp [upd]

theorem upd_other {α : Type} (f : String → α) (k k2 : String) (v : α)
    (h : ¬ k2 = k) : upd f k v k2 = f k2 := by simp [upd, h]

theorem shiftOf_eq_countP (removed : List Int) (idx : Int) :
    shiftOf removed idx = (removed.countP (fun r => decide (r < idx)) : Int) := by
  have haux : ∀ (l : List Int) (a : Int),
      l.foldl (fun acc r => if r < idx then acc + 1 else acc) a =
        a + (l.countP (fun r => decide (r < idx)) : Int) := by
    intro l
    induction l with
    | nil => intro a; simp
    | cons r rs ih =>
      intro a
      rw [List.foldl_cons, ih, List.countP_cons]
      by_cases hr : r < idx
      · simp [hr]
        omega
      · simp [hr]
  have := haux removed 0
  simpa [shiftOf] using this

theorem remapSet_eq_spec (removed : List Int) (s : Finset Int) :
    remapSet removed s = remapSpec removed s := by
  unfold remapSet remapSpec
  simp [shiftOf_eq_countP]

/-- C4: `_reindex_after_removal` maps each surviving index `i` to
`i - count(r in R : r < i)`, drops indices in `R`, applies this transform to
`checked`, `negated` and every OR-group, and drops OR-groups left with fewer
than 2 members; concretely, items `["a","b","c","d"]` with checked
`{1, 3}` and `delete_dorks([1])` yield items `["a","c","d"]` and
checked `{2}`. -/
theorem c4_reindex :
    (∀ (s : AppState) (key : String) (R : List Int), R.Sorted (· ≤ ·) →
      (reindexAfterRemoval s key R).checkedByCat key =
          remapSpec R (s.checkedByCat key) ∧
        (reindexAfterRemoval s key R).notByCat key =
          remapSpec R (s.notByCat key) ∧
        (reindexAfterRemoval s key R).orGroupsByCat key =
          ((s.orGroupsByCat key).map (remapSpec R)).filter
            (fun g => 2 ≤ g.card)) ∧
    (deleteDorks exState [1]).1.categories =
        [⟨"k", "K", ["a", "c", "d"], []⟩] ∧
      (deleteDorks exState [1]).1.checkedByCat "k" = {2} ∧
      (deleteDorks exState [1]).2 = false := by
  refine ⟨fun s key R _ => ⟨?_, ?_, ?_⟩, by decide, by decide, by decide⟩ <;>
    simp [reindexAfterRemoval, upd_same, remapSet_eq_spec,
      show remapSet R = remapSpec R from funext (remapSet_eq_spec R)]

/-- C4 witness: the general remap characterization applied to the state of
P3 with removal list `[1]`. -/
theorem c4_reindex_witness :
    (reindexAfterRemoval exState "k" [1]).checkedByCat "k" =
        remapSpec [1] (exState.checkedByCat "k") ∧
      (reindexAfterRemoval exState "k" [1]).notByCat "k" =
        remapSpec [1] (exState.notByCat "k") ∧
      (reindexAfterRemoval exState "k" [1]).orGroupsByCat "k" =
        ((exState.orGroupsByCat "k").map (remapSpec [1])).filter
          (fun g => 2 ≤ g.card) :=
  c4_reindex.1 exState "k" [1] (by decide)

theorem countP_split (R : List Int) (i j : Int) (hi : ¬ i ∈ R) :
    R.countP (fun r => decide (r < j)) ≤
      R.countP (fun r => decide (r < i)) +
        R.countP (fun r => decide (i < r) && decide (r < j)) := by
  induction R with
  | nil => simp
  | cons r rs ih =>
    have hri : ¬ r = i := by intro h; exact hi (by simp [h])
    have hrs : ¬ i ∈ rs := fun h => hi (by simp [h])
    have hih := ih hrs
    rw [List.countP_cons, List.countP_cons, List.countP_cons]
    by_cases h1 : r < j <;> by_cases h2 : r < i
    · have h5 : ¬ i < r := by omega
      simp [h1, h2, h5]
      omega
    · have h4 : i < r := by omega
      simp [h1, h2, h4]
      omega
    · have h5 : ¬ i < r := by omega
      simp [h1, h2, h5]
      omega
    · have h4 : i < r := by omega
      simp [h1, h2, h4]
      omega

theorem countP_ioo_le (R : List Int) (i j : Int) (hnd : R.Nodup) :
    (R.countP (fun r => decide (i < r) && decide (r < j)) : Int) ≤
      (Finset.Ioo i j).card := by
  rw [List.countP_eq_length_filter]
  have hnd2 : (R.filter (fun r => decide (i < r) && decide (r < j))).Nodup :=
    hnd.filter _
  have hsub : (R.filter (fun r => decide (i < r) && decide (r < j))).toFinset ⊆
      Finset.Ioo i j := by
    intro x hx
    rw [List.mem_toFinset, List.mem_filter] at hx
    simp at hx
    exact Finset.mem_Ioo.mpr ⟨hx.2.1, hx.2.2⟩
  have := Finset.card_le_card hsub
  rw [List.toFinset_card_of_nodup hnd2] at this
  exact_mod_cast this

theorem shift_bound (R : List Int) (i j : Int) (hnd : R.Nodup)
    (hi : ¬ i ∈ R) (hij : i < j) :
    shiftOf R j - shiftOf R i ≤ j - i - 1 := by
  rw [shiftOf_eq_countP, shiftOf_eq_countP]
  have h1 := countP_split R i j hi
  have h2 := countP_ioo_le R i j hnd
  have h3 : ((Finset.Ioo i j).card : Int) = j - i - 1 := by
    rw [Int.card_Ioo]
    omega
  omega

theorem remap_strict_mono (R : List Int) (hnd : R.Nodup)
    (i j : Int) (hi : ¬ i ∈ R) (hij : i < j) :
    i - shiftOf R i < j - shiftOf R j := by
  have := shift_bound R i j hnd hi hij
  omega

theorem remap_inj (R : List Int) (hnd : R.Nodup)
    (i j : Int) (hi : ¬ i ∈ R) (hj : ¬ j ∈ R)
    (heq : i - shiftOf R i = j - shiftOf R j) : i = j := by
  rcases lt_trichotomy i j with h | h | h
  · exact absurd heq (ne_of_lt (remap_strict_mono R hnd i j hi h))
  · exact h
  · exact absurd heq.symm (ne_of_lt (remap_strict_mono R hnd j i hj h))

theorem remapSet_disjoint (R : List Int) (hnd : R.Nodup)
    (g h : Finset Int) (hdisj : Disjoint g h) :
    Disjoint (remapSet R g) (remapSet R h) := by
  rw [Finset.disjoint_left]
  intro x hxg hxh
  rw [remapSet, Finset.mem_image] at hxg hxh
  rcases hxg with ⟨i, hi, hix⟩
  rcases hxh with ⟨i2, hi2, hi2x⟩
  rw [Finset.mem_filter] at hi hi2
  have hii : i = i2 := by
    apply remap_inj R hnd i i2 (by simpa using hi.2) (by simpa using hi2.2)
    rw [hix, hi2x]
  rw [Finset.disjoint_left] at hdisj
  exact hdisj hi.1 (hii ▸ hi2.1)

/-- C10: on a sorted duplicate-free removal list the remap
`i - count(r in R : r < i)` is strictly increasing on surviving indices,
hence injective, so `_reindex_after_removal` keeps pairwise-disjoint
OR-groups pairwise disjoint and (dropping shrunken groups) preserves the
group invariant I2 without rerunning normalization. -/
theorem c10_remap_preserves_groups (R : List Int) (hR : R.Sorted (· < ·)) :
    (∀ i j : Int, ¬ i ∈ R → ¬ j ∈ R → i < j →
      i - shiftOf R i < j - shiftOf R j) ∧
    (∀ i j : Int, ¬ i ∈ R → ¬ j ∈ R →
      i - shiftOf R i = j - shiftOf R j → i = j) ∧
    (∀ (s : AppState) (key : String),
      (s.orGroupsByCat key).Pairwise Disjoint →
      (∀ g ∈ s.orGroupsByCat key, 2 ≤ g.card) →
      (((reindexAfterRemoval s key R).orGroupsByCat key).Pairwise Disjoint ∧
       ∀ g ∈ (reindexAfterRemoval s key R).orGroupsByCat key, 2 ≤ g.card)) := by
  have hnd : R.Nodup := hR.imp (fun h => ne_of_lt h)
  refine ⟨fun i j hi _ hij => remap_strict_mono R hnd i j hi hij,
    fun i j hi hj heq => remap_inj R hnd i j hi hj heq, ?_⟩
  intro s key hdisj _
  have hupd : (reindexAfterRemoval s key R).orGroupsByCat key =
      ((s.orGroupsByCat key).map (remapSet R)).filter (fun g => 2 ≤ g.card) := by
    simp [reindexAfterRemoval, upd_same]
  rw [hupd]
  constructor
  · apply List.Pairwise.filter
    exact (List.pairwise_map).mpr
      (hdisj.imp (fun h => remapSet_disjoint R hnd _ _ h))
  · intro g hg
    rw [List.mem_filter] at hg
    exact of_decide_eq_true hg.2

/-- C10 witness: the theorem applied to removal list `[1]` and the state of
P3 extended with the disjoint groups `{0,1}` and `{2,3}`. -/
theorem c10_remap_witness :
    ((reindexAfterRemoval
        { exState with orGroupsByCat := fun _ => [{0, 1}, {2, 3}] }
        "k" [1]).orGroupsByCat "k").Pairwise Disjoint ∧
      ∀ g ∈ (reindexAfterRemoval
        { exState with orGroupsByCat := fun _ => [{0, 1}, {2, 3}] }
        "k" [1]).orGroupsByCat "k", 2 ≤ g.card :=
  (c10_remap_preserves_groups [1] (by decide)).2.2
    { exState with orGroupsByCat := fun _ => [{0, 1}, {2, 3}] } "k"
    (by decide) (by decide)

/-! ## Claims C2 and C3: no-op behaviour of invalid references -/

theorem currentCategory_mem (s : AppState) (c : DorkCategory)
    (h : currentCategory s = some c) : c ∈ s.categories := by
  unfold currentCategory at h
  split at h
  · exact List.get?_mem h
  · exact absurd h (by simp)

theorem pyGetItem_ne_none (items : List String) (i : Int)
    (h0 : 0 ≤ i) (h1 : i < (items.length : Int)) :
    ¬ pyGetItem items i = none := by
  unfold pyGetItem
  rw [if_pos ⟨h0, h1⟩]
  have : i.toNat < items.length := by omega
  rw [List.get?_eq_get this]
  simp

theorem rebuildVarsUpdate_fields (s : AppState) :
    (rebuildVarsUpdate s).categories = s.categories ∧
    (rebuildVarsUpdate s).currentIndex = s.currentIndex ∧
    (rebuildVarsUpdate s).checkedByCat = s.checkedByCat ∧
    (rebuildVarsUpdate s).notByCat = s.notByCat ∧
    (rebuildVarsUpdate s).orGroupsByCat = s.orGroupsByCat ∧
    (rebuildVarsUpdate s).profiles = s.profiles := by
  unfold rebuildVarsUpdate
  cases h : currentCategory s <;> exact ⟨rfl, rfl, rfl, rfl, rfl, rfl⟩

theorem rebuilt_fst_fields (s : AppState) :
    ((rebuilt s).1.categories = s.categories ∧
     (rebuilt s).1.currentIndex = s.currentIndex ∧
     (rebuilt s).1.checkedByCat = s.checkedByCat ∧
     (rebuilt s).1.notByCat = s.notByCat ∧
     (rebuilt s).1.orGroupsByCat = s.orGroupsByCat ∧
     (rebuilt s).1.profiles = s.profiles) := by
  unfold rebuilt
  by_cases h : rebuildRaises s = true
  · rw [if_pos h]
    exact ⟨rfl, rfl, rfl, rfl, rfl, rfl⟩
  · rw [if_neg h]
    exact rebuildVarsUpdate_fields s

theorem rebuildRaises_eq_false (s : AppState)
    (h : ∀ c ∈ s.categories, ∀ i ∈ s.checkedByCat c.key,
      0 ≤ i ∧ i < (c.items.length : Int)) :
    rebuildRaises s = false := by
  unfold rebuildRaises
  cases hc : currentCategory s with
  | none => rfl
  | some c =>
    simp only [decide_eq_false_iff_not]
    intro ⟨i, hi, hnone⟩
    have hmem := currentCategory_mem s c hc
    have := h c hmem i hi
    exact pyGetItem_ne_none c.items i this.1 this.2 hnone

/-- C2 counterexample: applying the profile `"p"` whose category `"gone"`
does not exist replaces the global variable map with the profile's vars, so
the operation is not a no-op. -/
theorem c2_counterexample :
    (applyProfile staleState "p").1.vars "x" = some "1" ∧
    staleState.vars "x" = none := ⟨by decide, rfl⟩

/-- C2 (amended): applying a profile whose category key matches no live
category leaves the active category index and the selection state of every
live category unchanged, but records the profile's selection state under the
stale key and replaces the global variable map with the profile's vars
(augmented with empty-string defaults for placeholders of the current
category's checked fragments), and the rebuild does not raise. -/
theorem c2_amended (s : AppState) (name : String) (np : String × Profile)
    (hfind : s.profiles.find? (fun e => e.1 = name) = some np)
    (hstale : ∀ c ∈ s.categories, ¬ c.key = np.2.category)
    (hchk : ∀ c ∈ s.categories, ∀ i ∈ s.checkedByCat c.key,
      0 ≤ i ∧ i < (c.items.length : Int)) :
    (applyProfile s name).2 = false ∧
    (applyProfile s name).1.currentIndex = s.currentIndex ∧
    (∀ c ∈ s.categories,
      (applyProfile s name).1.checkedByCat c.key = s.checkedByCat c.key ∧
      (applyProfile s name).1.notByCat c.key = s.notByCat c.key ∧
      (applyProfile s name).1.orGroupsByCat c.key = s.orGroupsByCat c.key) ∧
    (applyProfile s name).1.checkedByCat np.2.category = np.2.checked.toFinset ∧
    (∀ k : String,
      (applyProfile s name).1.vars k =
        match currentCategory s with
        | none => dictGet np.2.vars k
        | some c =>
          if k ∈ checkedVarNames s c ∧ (dictGet np.2.vars k).isNone then some ""
          else dictGet np.2.vars k) := by
  have hidx : s.categories.findIdx? (fun c => c.key = np.2.category) = none := by
    rw [List.findIdx?_eq_none_iff]
    intro c hc
    simp [hstale c hc]
  have happ : applyProfile s name = rebuilt
      { categories := s.categories, currentIndex := s.currentIndex,
        checkedByCat := upd s.checkedByCat np.2.category np.2.checked.toFinset,
        notByCat := upd s.notByCat np.2.category np.2.not_indices.toFinset,
        orGroupsByCat := upd s.orGroupsByCat np.2.category
          (np.2.or_groups.map (fun g => g.toFinset)),
        vars := dictGet np.2.vars, profiles := s.profiles } := by
    unfold applyProfile
    rw [hfind]
    simp only [hidx]
  rw [happ]
  set s1 : AppState :=
    { categories := s.categories, currentIndex := s.currentIndex,
      checkedByCat := upd s.checkedByCat np.2.category np.2.checked.toFinset,
      notByCat := upd s.notByCat np.2.category np.2.not_indices.toFinset,
      orGroupsByCat := upd s.orGroupsByCat np.2.category
        (np.2.or_groups.map (fun g => g.toFinset)),
      vars := dictGet np.2.vars, profiles := s.profiles } with hs1
  have hcc : currentCategory s1 = currentCategory s := rfl
  have hchk1 : ∀ c ∈ s1.categories, ∀ i ∈ s1.checkedByCat c.key,
      0 ≤ i ∧ i < (c.items.length : Int) := by
    intro c hc i hi
    rw [hs1] at hi
    simp only at hi
    rw [upd_other _ _ _ _ (hstale c hc)] at hi
    exact hchk c hc i hi
  have hraise : rebuildRaises s1 = false := rebuildRaises_eq_false s1 hchk1
  have hreb : rebuilt s1 = (rebuildVarsUpdate s1, false) := by
    unfold rebuilt
    rw [hraise]
    rfl
  rw [hreb]
  have hfields := rebuildVarsUpdate_fields s1
  refine ⟨rfl, hfields.2.1, ?_, ?_, ?_⟩
  · intro c hc
    rw [hfields.2.2.1, hfields.2.2.2.1, hfields.2.2.2.2.1]
    exact ⟨upd_other _ _ _ _ (hstale c hc), upd_other _ _ _ _ (hstale c hc),
      upd_other _ _ _ _ (hstale c hc)⟩
  · rw [hfields.2.2.1]
    exact upd_same _ _ _
  · intro k
    unfold rebuildVarsUpdate
    rw [hcc]
    cases hc : currentCategory s with
    | none => rfl
    | some c =>
      have hnames : checkedVarNames s1 c = checkedVarNames s c := by
        unfold checkedVarNames
        rw [show s1.checkedByCat c.key = s.checkedByCat c.key from
          upd_other _ _ _ _ (hstale c (currentCategory_mem s c hc))]
      simp only [hnames]

/-- C2 witness: the amended theorem applied to `staleState` and its stored
profile. -/
theorem c2_amended_witness :
    (applyProfile staleState "p").2 = false ∧
    (applyProfile staleState "p").1.currentIndex = staleState.currentIndex ∧
    (∀ c ∈ staleState.categories,
      (applyProfile staleState "p").1.checkedByCat c.key =
          staleState.checkedByCat c.key ∧
        (applyProfile staleState "p").1.notByCat c.key =
          staleState.notByCat c.key ∧
        (applyProfile staleState "p").1.orGroupsByCat c.key =
          staleState.orGroupsByCat c.key) ∧
    (applyProfile staleState "p").1.checkedByCat
        ("p", (⟨"p", "gone", [0], [("x", "1")], [], []⟩ : Profile)).2.category =
      ("p", (⟨"p", "gone", [0], [("x", "1")], [], []⟩ : Profile)).2.checked.toFinset ∧
    (∀ k : String,
      (applyProfile staleState "p").1.vars k =
        match currentCategory staleState with
        | none =>
          dictGet ("p", (⟨"p", "gone", [0], [("x", "1")], [], []⟩ : Profile)).2.vars k
        | some c =>
          if k ∈ checkedVarNames staleState c ∧
              (dictGet ("p", (⟨"p", "gone", [0], [("x", "1")], [], []⟩ : Profile)).2.vars k).isNone
            then some ""
          else dictGet ("p", (⟨"p", "gone", [0], [("x", "1")], [], []⟩ : Profile)).2.vars k) :=
  c2_amended staleState "p" ("p", ⟨"p", "gone", [0], [("x", "1")], [], []⟩)
    (by decide) (by decide) (by decide)

/-- C3 counterexample: `toggle_checked` with the out-of-range index 7 stores
the index (state changed) and the subsequent `_rebuild_query` raises
`IndexError`, so invalid indices are not no-ops. -/
theorem c3_counterexample :
    (toggleChecked exState 7).2 = true ∧
    ¬ (toggleChecked exState 7).1.checkedByCat "k" = exState.checkedByCat "k" :=
  ⟨by decide, by decide⟩

/-- C3 (amended): operations given unknown category keys (`move_dorks`) or
unknown profile names (`apply_profile`, `delete_profile`) are no-ops that do
not raise; this does not extend to out-of-range fragment indices, which
`toggle_checked` / `toggle_not` / `set_checked` / `make_or_group` store
unvalidated (see the counterexample). -/
theorem c3_amended :
    (∀ (s : AppState) (srcKey dstKey : String) (l : List Int),
      ((∀ c ∈ s.categories, ¬ c.key = srcKey) ∨
       (∀ c ∈ s.categories, ¬ c.key = dstKey)) →
      moveDorks s srcKey dstKey l = (s, false)) ∧
    (∀ (s : AppState) (name : String),
      (∀ e ∈ s.profiles, ¬ e.1 = name) →
      applyProfile s name = (s, false)) ∧
    (∀ (s : AppState) (name : String),
      (∀ e ∈ s.profiles, ¬ e.1 = name) →
      deleteProfile s name = s) := by
  refine ⟨?_, ?_, ?_⟩
  · intro s srcKey dstKey l h
    unfold moveDorks
    by_cases hg : srcKey = dstKey ∨ l = []
    · rw [if_pos hg]
    · rw [if_neg hg]
      rcases h with h | h
      · have hsrc : s.categories.find? (fun c => c.key = srcKey) = none := by
          rw [List.find?_eq_none]
          intro c hc
          simp [h c hc]
        rw [hsrc]
      · have hdst : s.categories.find? (fun c => c.key = dstKey) = none := by
          rw [List.find?_eq_none]
          intro c hc
          simp [h c hc]
        rw [hdst]
        cases s.categories.find? (fun c => c.key = srcKey) <;> rfl
  · intro s name h
    unfold applyProfile
    have hf : s.profiles.find? (fun e => e.1 = name) = none := by
      rw [List.find?_eq_none]
      intro e he
      simp [h e he]
    rw [hf]
  · intro s name h
    unfold deleteProfile
    rw [List.filter_eq_self.mpr]
    intro e he
    simp [h e he]

/-- C3 witness: the amended theorem applied at an unknown source category
key and an unknown profile name. -/
theorem c3_amended_witness :
    moveDorks exState "nope" "k" [0] = (exState, false) ∧
    applyProfile exState "ghost" = (exState, false) ∧
    deleteProfile exState "ghost" = exState :=
  ⟨c3_amended.1 exState "nope" "k" [0] (Or.inl (by decide)),
   c3_amended.2.1 exState "ghost" (by decide),
   c3_amended.2.2 exState "ghost" (by decide)⟩

/-! ## Claim C5: group normalization -/

theorem placeInto_none (acc : List (Finset Int)) (g : Finset Int)
    (h : placeInto acc g = none) : ∀ r ∈ acc, Disjoint r g := by
  induction acc with
  | nil => intro r hr; simp at hr
  | cons r rs ih =>
    intro x hx
    unfold placeInto at h
    by_cases hd : ¬ Disjoint r g
    · rw [if_pos hd] at h; exact absurd h (by simp)
    · rw [if_neg hd] at h
      rcases List.mem_cons.mp hx with hxr | hxs
      · subst hxr; exact not_not.mp hd
      · rcases ho : placeInto rs g with _ | m
        · exact ih ho x hxs
        · rw [ho] at h; exact absurd h (by simp)

theorem placeInto_props (acc : List (Finset Int)) (g : Finset Int)
    (m : List (Finset Int)) (h : placeInto acc g = some m) :
    m.length = acc.length ∧
    (∀ x ∈ m, x ∈ acc ∨ ∃ r ∈ acc, ¬ Disjoint r g ∧ x = r ∪ g) ∧
    (∀ a ∈ acc, ∃ o ∈ m, a ⊆ o) ∧
    (∃ o ∈ m, g ⊆ o) := by
  induction acc generalizing m with
  | nil => simp [placeInto] at h
  | cons r rs ih =>
    unfold placeInto at h
    by_cases hd : ¬ Disjoint r g
    · rw [if_pos hd] at h
      have hm : m = (r ∪ g) :: rs := by
        have := Option.some.injEq _ _ ▸ h
        exact (Option.some.inj h).symm
      subst hm
      refine ⟨by simp, ?_, ?_, ⟨r ∪ g, by simp, Finset.subset_union_right⟩⟩
      · intro x hx
        rcases List.mem_cons.mp hx with hx | hx
        · exact Or.inr ⟨r, by simp, hd, hx⟩
        · exact Or.inl (by simp [hx])
      · intro a ha
        rcases List.mem_cons.mp ha with ha | ha
        · exact ⟨r ∪ g, by simp, ha ▸ Finset.subset_union_left⟩
        · exact ⟨a, by simp [ha], le_refl a⟩
    · rw [if_neg hd] at h
      rcases ho : placeInto rs g with _ | m2
      · rw [ho] at h; exact absurd h (by simp)
      · rw [ho] at h
        have hm : m = r :: m2 := (Option.some.inj h).symm
        subst hm
        rcases ih m2 ho with ⟨hlen, hmem, hcov, o, ho2, hgo⟩
        refine ⟨by simp [hlen], ?_, ?_, ⟨o, by simp [ho2], hgo⟩⟩
        · intro x hx
          rcases List.mem_cons.mp hx with hx | hx
          · exact Or.inl (by simp [hx])
          · rcases hmem x hx with hx2 | ⟨r2, hr2, hd2, hx2⟩
            · exact Or.inl (by simp [hx2])
            · exact Or.inr ⟨r2, by simp [hr2], hd2, hx2⟩
        · intro a ha
          rcases List.mem_cons.mp ha with ha | ha
          · exact ⟨r, by simp, ha ▸ le_refl r⟩
          · rcases hcov a ha with ⟨o2, ho3, hao⟩
            exact ⟨o2, by simp [ho3], hao⟩

theorem onePassAux_true (acc gs : List (Finset Int)) :
    (onePassAux acc gs true).2 = true := by
  induction gs generalizing acc with
  | nil => rfl
  | cons g rest ih =>
    unfold onePassAux
    rcases h : placeInto acc g with _ | m <;> simp [h, ih]

theorem onePassAux_len (acc gs : List (Finset Int)) (ch : Bool) :
    (onePassAux acc gs ch).1.length ≤ acc.length + gs.length := by
  induction gs generalizing acc ch with
  | nil => simp [onePassAux]
  | cons g rest ih =>
    unfold onePassAux
    rcases h : placeInto acc g with _ | m
    · have := ih (acc ++ [g]) ch
      simp at this ⊢
      omega
    · have hlen := (placeInto_props acc g m h).1
      have := ih m true
      simp at this ⊢
      omega

theorem onePassAux_changed_len (acc gs : List (Finset Int)) :
    (onePassAux acc gs false).2 = true →
      (onePassAux acc gs false).1.length < acc.length + gs.length := by
  induction gs generalizing acc with
  | nil => intro h; simp [onePassAux] at h
  | cons g rest ih =>
    intro h
    unfold onePassAux at h ⊢
    rcases hp : placeInto acc g with _ | m
    · rw [hp] at h
      have := ih (acc ++ [g]) h
      simp at this ⊢
      omega
    · have hlen := (placeInto_props acc g m hp).1
      have := onePassAux_len m rest true
      simp
      omega

theorem onePassAux_false (acc gs : List (Finset Int)) (ch : Bool)
    (h : (onePassAux acc gs ch).2 = false) :
    ch = false ∧ (onePassAux acc gs ch).1 = acc ++ gs ∧
      (∀ g ∈ gs, ∀ a ∈ acc, Disjoint a g) ∧ gs.Pairwise Disjoint := by
  induction gs generalizing acc ch with
  | nil =>
    simp [onePassAux] at h ⊢
    exact h
  | cons g rest ih =>
    unfold onePassAux at h ⊢
    rcases hp : placeInto acc g with _ | m
    · rw [hp] at h
      rcases ih (acc ++ [g]) ch h with ⟨hch, heq, hdisj, hpw⟩
      have hg := placeInto_none acc g hp
      refine ⟨hch, by simp [heq], ?_, ?_⟩
      · intro g2 hg2 a ha
        rcases List.mem_cons.mp hg2 with hg2 | hg2
        · subst hg2; exact hg a ha
        · exact hdisj g2 hg2 a (by simp [ha])
      · rw [List.pairwise_cons]
        refine ⟨fun g2 hg2 => ?_, hpw⟩
        have := hdisj g2 hg2 g (by simp)
        exact this
    · rw [hp] at h
      rw [onePassAux_true m rest] at h
      exact absurd h (by simp)

theorem onePassAux_grown (G : List (Finset Int)) (acc gs : List (Finset Int))
    (ch : Bool) (hacc : ∀ x ∈ acc, Grown G x) (hgs : ∀ g ∈ gs, Grown G g) :
    ∀ x ∈ (onePassAux acc gs ch).1, Grown G x := by
  induction gs generalizing acc ch with
  | nil => simpa [onePassAux] using hacc
  | cons g rest ih =>
    unfold onePassAux
    rcases hp : placeInto acc g with _ | m
    · exact ih (acc ++ [g]) ch
        (fun x hx => by
          rcases List.mem_append.mp hx with hx | hx
          · exact hacc x hx
          · rw [List.mem_singleton.mp hx]; exact hgs g (by simp))
        (fun g2 hg2 => hgs g2 (by simp [hg2]))
    · rcases placeInto_props acc g m hp with ⟨_, hmem, _, _⟩
      exact ih m true
        (fun x hx => by
          rcases hmem x hx with hx2 | ⟨r, hr, hd, hx2⟩
          · exact hacc x hx2
          · rw [hx2]
            exact Grown.merge r g (hacc r hr) (hgs g (by simp)) hd)
        (fun g2 hg2 => hgs g2 (by simp [hg2]))

theorem onePassAux_covers (acc gs : List (Finset Int)) (ch : Bool) :
    ∀ a, a ∈ acc ∨ a ∈ gs → ∃ o ∈ (onePassAux acc gs ch).1, a ⊆ o := by
  induction gs generalizing acc ch with
  | nil =>
    intro a ha
    rcases ha with ha | ha
    · exact ⟨a, by simpa [onePassAux] using ha, le_refl a⟩
    · simp at ha
  | cons g rest ih =>
    intro a ha
    unfold onePassAux
    rcases hp : placeInto acc g with _ | m
    · apply ih (acc ++ [g]) ch
      rcases ha with ha | ha
      · exact Or.inl (by simp [ha])
      · rcases List.mem_cons.mp ha with ha | ha
        · exact Or.inl (by simp [ha])
        · exact Or.inr ha
    · rcases placeInto_props acc g m hp with ⟨_, _, hcov, o, ho, hgo⟩
      rcases ha with ha | ha
      · rcases hcov a ha with ⟨o2, ho2, hao2⟩
        rcases ih m true o2 (Or.inl ho2) with ⟨o3, ho3, ho23⟩
        exact ⟨o3, ho3, le_trans hao2 ho23⟩
      · rcases List.mem_cons.mp ha with ha | ha
        · rcases ih m true o (Or.inl ho) with ⟨o3, ho3, ho23⟩
          exact ⟨o3, ho3, le_trans (ha ▸ hgo) ho23⟩
        · exact ih m true a (Or.inr ha)

theorem mergeLoop_fixpoint (n : Nat) :
    ∀ gs : List (Finset Int), gs.length < n →
      onePass (mergeLoop n gs) = (mergeLoop n gs, false) := by
  induction n with
  | zero => intro gs h; simp at h
  | succ n ih =>
    intro gs h
    unfold mergeLoop
    rcases hp : onePass gs with ⟨m, b⟩
    cases b with
    | false =>
      simp only
      have hfalse := onePassAux_false [] gs false (by rw [show onePassAux [] gs false = onePass gs from rfl, hp])
      have hm : m = gs := by
        have := hfalse.2.1
        rw [show onePassAux [] gs false = onePass gs from rfl, hp] at this
        simpa using this
      rw [hm] at hp ⊢
      exact hp
    | true =>
      simp only
      apply ih
      have hlen := onePassAux_changed_len [] gs
      rw [show onePassAux [] gs false = onePass gs from rfl, hp] at hlen
      have h2 := hlen (by simp)
      simp at h2
      omega

theorem mergeLoop_grown (G : List (Finset Int)) (n : Nat) :
    ∀ gs : List (Finset Int), (∀ g ∈ gs, Grown G g) →
      ∀ x ∈ mergeLoop n gs, Grown G x := by
  induction n with
  | zero => intro gs h; simpa [mergeLoop] using h
  | succ n ih =>
    intro gs h
    unfold mergeLoop
    rcases hp : onePass gs with ⟨m, b⟩
    have hgm : ∀ x ∈ m, Grown G x := by
      intro x hx
      apply onePassAux_grown G [] gs false (by simp) h
      rw [show onePassAux [] gs false = onePass gs from rfl, hp]
      exact hx
    cases b with
    | false => simpa using hgm
    | true => simpa using ih m hgm

theorem mergeLoop_covers (n : Nat) :
    ∀ gs : List (Finset Int), ∀ g ∈ gs, ∃ o ∈ mergeLoop n gs, g ⊆ o := by
  induction n with
  | zero =>
    intro gs g hg
    exact ⟨g, by simpa [mergeLoop] using hg, le_refl g⟩
  | succ n ih =>
    intro gs g hg
    unfold mergeLoop
    rcases hp : onePass gs with ⟨m, b⟩
    have hcov : ∃ o ∈ m, g ⊆ o := by
      have := onePassAux_covers [] gs false g (Or.inr hg)
      rw [show onePassAux [] gs false = onePass gs from rfl, hp] at this
      exact this
    cases b with
    | false => simpa using hcov
    | true =>
      rcases hcov with ⟨o, ho, hgo⟩
      rcases ih m o ho with ⟨o2, ho2, ho22⟩
      exact ⟨o2, by simpa using ho2, le_trans hgo ho22⟩

theorem grown_nonempty (gs : List (Finset Int))
    (hne : ∀ g ∈ gs, g.Nonempty) (o : Finset Int) (h : Grown gs o) :
    o.Nonempty := by
  induction h with
  | base g hg => exact hne g hg
  | merge a b _ _ _ iha _ => exact Finset.Nonempty.mono Finset.subset_union_left iha

theorem grown_mem_union (gs : List (Finset Int)) (o : Finset Int)
    (h : Grown gs o) : ∀ i ∈ o, ∃ g ∈ gs, i ∈ g := by
  induction h with
  | base g hg => exact fun i hi => ⟨g, hg, hi⟩
  | merge a b _ _ _ iha ihb =>
    intro i hi
    rcases Finset.mem_union.mp hi with hi | hi
    · exact iha i hi
    · exact ihb i hi

theorem normalizeGroups_resolution (gs : List (Finset Int)) :
    (normalizeGroups gs).Pairwise Disjoint ∧
    (∀ g ∈ normalizeGroups gs, 2 ≤ g.card) ∧
    GroupResolution (gs.filter (fun g => 2 ≤ g.card)) (normalizeGroups gs) := by
  set gs1 := gs.filter (fun g => 2 ≤ g.card) with hgs1
  have hne1 : ∀ g ∈ gs1, g.Nonempty := by
    intro g hg
    rw [hgs1, List.mem_filter] at hg
    have := of_decide_eq_true hg.2
    exact Finset.card_pos.mp (by omega)
  have hfix := mergeLoop_fixpoint (gs1.length + 1) gs1 (by omega)
  have hfalse := onePassAux_false [] (mergeLoop (gs1.length + 1) gs1) false
    (by rw [show onePassAux [] (mergeLoop (gs1.length + 1) gs1) false =
        onePass (mergeLoop (gs1.length + 1) gs1) from rfl, hfix])
  have hpw : (mergeLoop (gs1.length + 1) gs1).Pairwise Disjoint := hfalse.2.2.2
  have hgrown : ∀ x ∈ mergeLoop (gs1.length + 1) gs1, Grown gs1 x :=
    mergeLoop_grown gs1 (gs1.length + 1) gs1 (fun g hg => Grown.base g hg)
  have hnorm : normalizeGroups gs =
      (mergeLoop (gs1.length + 1) gs1).filter (fun g => 2 ≤ g.card) := rfl
  refine ⟨?_, ?_, ?_, ?_, ?_, ?_⟩
  · rw [hnorm]; exact hpw.filter _
  · intro g hg
    rw [hnorm, List.mem_filter] at hg
    exact of_decide_eq_true hg.2
  · intro o ho
    rw [hnorm, List.mem_filter] at ho
    exact hgrown o ho.1
  · intro g hg
    rcases mergeLoop_covers (gs1.length + 1) gs1 g hg with ⟨o, ho, hgo⟩
    refine ⟨o, ?_, hgo⟩
    rw [hnorm, List.mem_filter]
    refine ⟨ho, decide_eq_true ?_⟩
    have hg2 : 2 ≤ g.card := by
      rw [hgs1, List.mem_filter] at hg
      exact of_decide_eq_true hg.2
    exact le_trans hg2 (Finset.card_le_card hgo)
  · rw [hnorm]; exact (hpw.filter _)
  · intro o ho
    rw [hnorm, List.mem_filter] at ho
    exact grown_nonempty gs1 hne1 o (hgrown o ho.1)

theorem pairwise_disjoint_eq (L : List (Finset Int)) (h : L.Pairwise Disjoint)
    (a b : Finset Int) (ha : a ∈ L) (hb : b ∈ L) (hd : ¬ Disjoint a b) :
    a = b := by
  induction L with
  | nil => simp at ha
  | cons x xs ih =>
    rw [List.pairwise_cons] at h
    rcases List.mem_cons.mp ha with ha2 | ha2 <;>
      rcases List.mem_cons.mp hb with hb2 | hb2
    · rw [ha2, hb2]
    · subst ha2; exact absurd (h.1 b hb2) hd
    · subst hb2; exact absurd (h.1 a ha2).symm hd
    · exact ih h.2 ha2 hb2

theorem grown_subset_some (gs : List (Finset Int)) (L : List (Finset Int))
    (hres : GroupResolution gs L) (o : Finset Int) (h : Grown gs o) :
    ∃ o2 ∈ L, o ⊆ o2 := by
  induction h with
  | base g hg => exact hres.2.1 g hg
  | merge a b hga hgb hd iha ihb =>
    rcases iha with ⟨oa, hoa, haoa⟩
    rcases ihb with ⟨ob, hob, hbob⟩
    have hoab : oa = ob := by
      apply pairwise_disjoint_eq L hres.2.2.1 oa ob hoa hob
      rw [Finset.not_disjoint_iff] at hd ⊢
      rcases hd with ⟨x, hxa, hxb⟩
      exact ⟨x, haoa hxa, hbob hxb⟩
    refine ⟨oa, hoa, ?_⟩
    rw [Finset.union_subset_iff]
    exact ⟨haoa, hoab ▸ hbob⟩

theorem groupResolution_unique (gs L1 L2 : List (Finset Int))
    (hne : ∀ g ∈ gs, g.Nonempty)
    (h1 : GroupResolution gs L1) (h2 : GroupResolution gs L2) :
    L1.toFinset = L2.toFinset := by
  have key : ∀ (La Lb : List (Finset Int)), GroupResolution gs La →
      GroupResolution gs Lb → ∀ o ∈ La, o ∈ Lb := by
    intro La Lb ha hb o ho
    have hgrown := ha.1 o ho
    rcases grown_subset_some gs Lb hb o hgrown with ⟨o2, ho2, hoo2⟩
    rcases grown_subset_some gs La ha o2 (hb.1 o2 ho2) with ⟨o3, ho3, ho23⟩
    have hone : o.Nonempty := ha.2.2.2 o ho
    have hoo3 : o = o3 := by
      apply pairwise_disjoint_eq La ha.2.2.1 o o3 ho ho3
      rw [Finset.not_disjoint_iff]
      rcases hone with ⟨x, hx⟩
      exact ⟨x, hx, ho23 (hoo2 hx)⟩
    have : o = o2 := le_antisymm hoo2 (hoo3 ▸ ho23)
    exact this ▸ ho2
  ext o
  simp only [List.mem_toFinset]
  exact ⟨key L1 L2 h1 h2 o, key L2 L1 h2 h1 o⟩

/-- C5: after every `make_or_group` or `clear_groups` call the affected
category's OR-groups are pairwise disjoint with at least 2 members each;
`make_or_group` with fewer than 2 indices (or no current category) is a
no-op, and otherwise adds all given indices to the checked set; the
normalized groups form a `GroupResolution` of the size-filtered inputs —
overlap-connected maximal unions — and any list satisfying that
characterization has exactly the same groups, so the result is independent
of merge order. -/
theorem c5_groups :
    (∀ (s : AppState) (c : DorkCategory), currentCategory s = some c →
      (clearGroups s).1.orGroupsByCat c.key = [] ∧
      ((clearGroups s).1.orGroupsByCat c.key).Pairwise Disjoint ∧
      ∀ g ∈ (clearGroups s).1.orGroupsByCat c.key, 2 ≤ g.card) ∧
    (∀ (s : AppState) (l : List Int),
      currentCategory s = none ∨ l.length < 2 → makeOrGroup s l = (s, false)) ∧
    (∀ (s : AppState) (c : DorkCategory) (l : List Int),
      currentCategory s = some c → 2 ≤ l.length →
      (makeOrGroup s l).1.checkedByCat c.key =
          s.checkedByCat c.key ∪ l.toFinset ∧
        ((makeOrGroup s l).1.orGroupsByCat c.key).Pairwise Disjoint ∧
        (∀ g ∈ (makeOrGroup s l).1.orGroupsByCat c.key, 2 ≤ g.card) ∧
        GroupResolution
          ((s.orGroupsByCat c.key ++ [l.toFinset]).filter (fun g => 2 ≤ g.card))
          ((makeOrGroup s l).1.orGroupsByCat c.key) ∧
        (∀ L, GroupResolution
          ((s.orGroupsByCat c.key ++ [l.toFinset]).filter (fun g => 2 ≤ g.card))
          L → L.toFinset = ((makeOrGroup s l).1.orGroupsByCat c.key).toFinset)) := by
  refine ⟨?_, ?_, ?_⟩
  · intro s c hc
    have h1 : (clearGroups s).1.orGroupsByCat = upd s.orGroupsByCat c.key [] := by
      unfold clearGroups
      rw [hc]
      exact (rebuilt_fst_fields _).2.2.2.2.1
    rw [h1, upd_same]
    exact ⟨rfl, by simp, by simp⟩
  · intro s l h
    unfold makeOrGroup
    rcases h with h | h
    · rw [h]
    · cases hc : currentCategory s with
      | none => rfl
      | some c => simp only [hc]; rw [if_pos h]
  · intro s c l hc hl
    have hnotlt : ¬ l.length < 2 := by omega
    have h1 : (makeOrGroup s l).1.checkedByCat =
        upd s.checkedByCat c.key (s.checkedByCat c.key ∪ l.toFinset) ∧
        (makeOrGroup s l).1.orGroupsByCat =
        upd s.orGroupsByCat c.key
          (normalizeGroups (s.orGroupsByCat c.key ++ [l.toFinset])) := by
      unfold makeOrGroup
      rw [hc]
      simp only [if_neg hnotlt]
      exact ⟨(rebuilt_fst_fields _).2.2.1, (rebuilt_fst_fields _).2.2.2.2.1⟩
    rw [h1.1, h1.2, upd_same, upd_same]
    have hres := normalizeGroups_resolution (s.orGroupsByCat c.key ++ [l.toFinset])
    have hne : ∀ g ∈ (s.orGroupsByCat c.key ++ [l.toFinset]).filter
        (fun g => 2 ≤ g.card), g.Nonempty := by
      intro g hg
      rw [List.mem_filter] at hg
      have := of_decide_eq_true hg.2
      exact Finset.card_pos.mp (by omega)
    refine ⟨rfl, hres.1, hres.2.1, hres.2.2, ?_⟩
    intro L hL
    exact groupResolution_unique _ L _ hne hL hres.2.2

/-- C5 witness: the `make_or_group` clause applied to the state of P3 with
indices `[0, 2]`. -/
theorem c5_groups_witness :
    (makeOrGroup exState [0, 2]).1.checkedByCat "k" =
        exState.checkedByCat "k" ∪ ([0, 2] : List Int).toFinset ∧
      ((makeOrGroup exState [0, 2]).1.orGroupsByCat "k").Pairwise Disjoint ∧
      (∀ g ∈ (makeOrGroup exState [0, 2]).1.orGroupsByCat "k", 2 ≤ g.card) ∧
      GroupResolution
        ((exState.orGroupsByCat "k" ++ [([0, 2] : List Int).toFinset]).filter
          (fun g => 2 ≤ g.card))
        ((makeOrGroup exState [0, 2]).1.orGroupsByCat "k") ∧
      (∀ L, GroupResolution
        ((exState.orGroupsByCat "k" ++ [([0, 2] : List Int).toFinset]).filter
          (fun g => 2 ≤ g.card))
        L → L.toFinset = ((makeOrGroup exState [0, 2]).1.orGroupsByCat "k").toFinset) :=
  c5_groups.2.2 exState ⟨"k", "K", ["a", "b", "c", "d"], []⟩ [0, 2] (by decide)
    (by decide)

/-! ## Claim C7: cross-category move -/

theorem keep_cons (o : Nat) (R : List Nat) (x : String) (xs : List String) :
    keepNonRemoved o R (x :: xs) =
      if o ∈ R then keepNonRemoved (o + 1) R xs
      else x :: keepNonRemoved (o + 1) R xs := rfl

theorem keep_id (R : List Nat) :
    ∀ (items : List String) (o : Nat), (∀ r ∈ R, r < o) →
      keepNonRemoved o R items = items := by
  intro items
  induction items with
  | nil => intro o _; rfl
  | cons x xs ih =>
    intro o h
    rw [keep_cons]
    rw [if_neg (fun hm => absurd (h o hm) (by omega))]
    rw [ih (o + 1) (fun r hr => by have := h r hr; omega)]

theorem eraseIdx_eq_keep :
    ∀ (items : List String) (o L : Nat),
      items.eraseIdx L = keepNonRemoved o [o + L] items := by
  intro items
  induction items with
  | nil => intro o L; rfl
  | cons x xs ih =>
    intro o L
    cases L with
    | zero =>
      rw [keep_cons]
      rw [if_pos (by simp)]
      rw [keep_id [o + 0] xs (o + 1) (by intro r hr; simp at hr; omega)]
      rfl
    | succ L2 =>
      rw [keep_cons]
      rw [if_neg (by intro hm; simp at hm; try omega)]
      rw [List.eraseIdx_cons_succ]
      have := ih (o + 1) L2
      rw [show o + (L2 + 1) = (o + 1) + L2 from by omega]
      rw [this]

theorem keep_comm (L : Nat) (rest : List Nat) (hrest : ∀ r ∈ rest, r < L) :
    ∀ (items : List String) (o : Nat),
      keepNonRemoved o rest (keepNonRemoved o [L] items) =
        keepNonRemoved o (L :: rest) items := by
  intro items
  induction items with
  | nil => intro o; rfl
  | cons x xs ih =>
    intro o
    by_cases hoL : o = L
    · subst hoL
      have h1 : keepNonRemoved o [o] (x :: xs) = xs := by
        rw [keep_cons]
        rw [if_pos (by simp)]
        exact keep_id [o] xs (o + 1) (by intro r hr; simp at hr; omega)
      rw [h1]
      rw [keep_id rest xs o (fun r hr => hrest r hr)]
      have h2 : keepNonRemoved o (o :: rest) (x :: xs) =
          keepNonRemoved (o + 1) (o :: rest) xs := by
        rw [keep_cons]
        rw [if_pos (by simp)]
      rw [h2]
      rw [keep_id (o :: rest) xs (o + 1) (by
        intro r hr
        rcases List.mem_cons.mp hr with h | h
        · omega
        · have := hrest r h; omega)]
    · have h1 : keepNonRemoved o [L] (x :: xs) =
          x :: keepNonRemoved (o + 1) [L] xs := by
        rw [keep_cons]
        rw [if_neg (by intro hm; simp at hm; exact hoL hm)]
      rw [h1]
      by_cases ho : o ∈ rest
      · rw [show keepNonRemoved o rest (x :: keepNonRemoved (o + 1) [L] xs) =
            keepNonRemoved (o + 1) rest (keepNonRemoved (o + 1) [L] xs) from by
          rw [keep_cons]
          rw [if_pos ho]]
        rw [ih (o + 1)]
        rw [show keepNonRemoved o (L :: rest) (x :: xs) =
            keepNonRemoved (o + 1) (L :: rest) xs from by
          rw [keep_cons]
          rw [if_pos (by simp [ho])]]
      · rw [show keepNonRemoved o rest (x :: keepNonRemoved (o + 1) [L] xs) =
            x :: keepNonRemoved (o + 1) rest (keepNonRemoved (o + 1) [L] xs) from by
          rw [keep_cons]
          rw [if_neg ho]]
        rw [ih (o + 1)]
        rw [show keepNonRemoved o (L :: rest) (x :: xs) =
            x :: keepNonRemoved (o + 1) (L :: rest) xs from by
          rw [keep_cons]
          rw [if_neg (by
            intro hm
            rcases List.mem_cons.mp hm with h | h
            · exact hoL h
            · exact ho h)]]

theorem eraseIdxsDesc_eq_keep :
    ∀ (desc : List Nat), desc.Sorted (· > ·) →
      ∀ items : List String,
        eraseIdxsDesc items desc = keepNonRemoved 0 desc items := by
  intro desc
  induction desc with
  | nil =>
    intro _ items
    exact (keep_id [] items 0 (by simp)).symm
  | cons L rest ih =>
    intro hs items
    rw [List.sorted_cons] at hs
    unfold eraseIdxsDesc
    rw [List.foldl_cons]
    have h1 : rest.foldl (fun acc i => acc.eraseIdx i) (items.eraseIdx L) =
        keepNonRemoved 0 rest (items.eraseIdx L) := ih hs.2 (items.eraseIdx L)
    rw [h1]
    rw [show items.eraseIdx L = keepNonRemoved 0 [0 + L] items from
      eraseIdx_eq_keep items 0 L]
    rw [show (0 : Nat) + L = L from by omega]
    exact keep_comm L rest hs.1 items 0

theorem validSorted_perm (items : List String) (l : List Int) :
    List.Perm (validSorted items l)
      ((l.filter (fun i => decide (inRange items i))).dedup) :=
  List.perm_insertionSort _ _

theorem validSorted_sorted (items : List String) (l : List Int) :
    (validSorted items l).Sorted (· ≤ ·) :=
  List.sorted_insertionSort _ _

theorem validSorted_nodup (items : List String) (l : List Int) :
    (validSorted items l).Nodup :=
  (validSorted_perm items l).nodup_iff.mpr (List.nodup_dedup _)

theorem validSorted_mem (items : List String) (l : List Int) (i : Int) :
    i ∈ validSorted items l ↔ i ∈ l ∧ inRange items i := by
  rw [(validSorted_perm items l).mem_iff, List.mem_dedup, List.mem_filter]
  simp

theorem validSorted_sorted_lt (items : List String) (l : List Int) :
    (validSorted items l).Sorted (· < ·) :=
  (validSorted_sorted items l).lt_of_le (validSorted_nodup items l)

theorem validSorted_desc (items : List String) (l : List Int) :
    ((validSorted items l).reverse.map Int.toNat).Sorted (· > ·) := by
  have h1 : (validSorted items l).reverse.Pairwise (fun a b => b < a) := by
    rw [List.pairwise_reverse]
    exact validSorted_sorted_lt items l
  have h2 : (validSorted items l).reverse.Pairwise
      (fun a b => Int.toNat b < Int.toNat a) := by
    apply List.Pairwise.imp_of_mem ?_ h1
    intro a b ha hb hba
    have ha2 : 0 ≤ a := by
      have := (validSorted_mem items l a).mp (List.mem_reverse.mp ha)
      exact this.2.1
    have hb2 : 0 ≤ b := by
      have := (validSorted_mem items l b).mp (List.mem_reverse.mp hb)
      exact this.2.1
    omega
  exact (List.pairwise_map).mpr h2

theorem keep_congr (R1 R2 : List Nat) (h : ∀ n, n ∈ R1 ↔ n ∈ R2) :
    ∀ (items : List String) (o : Nat),
      keepNonRemoved o R1 items = keepNonRemoved o R2 items := by
  intro items
  induction items with
  | nil => intro o; rfl
  | cons x xs ih =>
    intro o
    rw [keep_cons, keep_cons]
    by_cases ho : o ∈ R1
    · rw [if_pos ho, if_pos ((h o).mp ho), ih]
    · rw [if_neg ho, if_neg (fun h2 => ho ((h o).mpr h2)), ih]

theorem updateFirst_mem_of_find? (p : DorkCategory → Bool)
    (f : DorkCategory → DorkCategory) :
    ∀ (L : List DorkCategory) (c : DorkCategory), L.find? p = some c →
      f c ∈ updateFirst p f L := by
  intro L
  induction L with
  | nil => intro c h; simp at h
  | cons x xs ih =>
    intro c h
    rw [List.find?_cons] at h
    unfold updateFirst
    by_cases hx : p x
    · rw [hx] at h
      simp at h
      subst h
      rw [if_pos hx]
      simp
    · have hx2 : p x = false := by simpa using hx
      rw [hx2] at h
      simp at h
      rw [if_neg hx]
      exact List.mem_cons_of_mem x (ih c h)

theorem updateFirst_mem_preserved (p : DorkCategory → Bool)
    (f : DorkCategory → DorkCategory) :
    ∀ (L : List DorkCategory) (d : DorkCategory), d ∈ L → p d = false →
      d ∈ updateFirst p f L := by
  intro L
  induction L with
  | nil => intro d h _; simp at h
  | cons x xs ih =>
    intro d hd hpd
    unfold updateFirst
    rcases List.mem_cons.mp hd with hd | hd
    · subst hd
      rw [if_neg (by simp [hpd])]
      simp
    · by_cases hx : p x
      · rw [if_pos hx]
        exact List.mem_cons_of_mem _ hd
      · rw [if_neg hx]
        exact List.mem_cons_of_mem _ (ih d hd hpd)

theorem find?_updateFirst_ne (p q : DorkCategory → Bool)
    (f : DorkCategory → DorkCategory)
    (hfq : ∀ c, q (f c) = q c) (hpq : ∀ c, p c = true → q c = false) :
    ∀ L : List DorkCategory,
      (updateFirst p f L).find? q = L.find? q := by
  intro L
  induction L with
  | nil => rfl
  | cons x xs ih =>
    unfold updateFirst
    by_cases hx : p x
    · rw [if_pos hx]
      rw [List.find?_cons, List.find?_cons]
      rw [hfq x, hpq x hx]
    · rw [if_neg hx]
      rw [List.find?_cons, List.find?_cons]
      by_cases hqx : q x
      · rw [hqx]
      · rw [show q x = false from by simpa using hqx]
        simpa using ih

/-- C7: `move_dorks` is a no-op when `src == dst` or the index list is
empty; otherwise it removes the named valid fragments from the source
(keeping the survivors in order), appends them in ascending-index order to
the end of the destination, remaps only the source category's selection
state, leaves the destination's selection state untouched, and (under index
validity of the destination state) the moved-in positions are unselected,
un-negated and ungrouped in the destination. -/
theorem c7_move :
    (∀ (s : AppState) (srcKey dstKey : String) (l : List Int),
      srcKey = dstKey ∨ l = [] → moveDorks s srcKey dstKey l = (s, false)) ∧
    (∀ (s : AppState) (srcKey dstKey : String) (l : List Int)
        (src dst : DorkCategory),
      ¬ srcKey = dstKey → ¬ l = [] →
      s.categories.find? (fun c => c.key = srcKey) = some src →
      s.categories.find? (fun c => c.key = dstKey) = some dst →
      (∀ i ∈ s.checkedByCat dstKey, 0 ≤ i ∧ i < (dst.items.length : Int)) →
      (∀ i ∈ s.notByCat dstKey, 0 ≤ i ∧ i < (dst.items.length : Int)) →
      (∀ g ∈ s.orGroupsByCat dstKey, ∀ i ∈ g,
        0 ≤ i ∧ i < (dst.items.length : Int)) →
      (∃ src2 ∈ (moveDorks s srcKey dstKey l).1.categories,
        src2.key = srcKey ∧
        src2.items = keepNonRemoved 0
          ((validSorted src.items l).map Int.toNat) src.items) ∧
      (∃ dst2 ∈ (moveDorks s srcKey dstKey l).1.categories,
        dst2.key = dstKey ∧
        dst2.items = dst.items ++ (validSorted src.items l).map
          (fun i => (src.items.get? i.toNat).getD "")) ∧
      (moveDorks s srcKey dstKey l).1.checkedByCat dstKey =
        s.checkedByCat dstKey ∧
      (moveDorks s srcKey dstKey l).1.notByCat dstKey = s.notByCat dstKey ∧
      (moveDorks s srcKey dstKey l).1.orGroupsByCat dstKey =
        s.orGroupsByCat dstKey ∧
      (∀ j : Int, (dst.items.length : Int) ≤ j →
        ¬ j ∈ (moveDorks s srcKey dstKey l).1.checkedByCat dstKey ∧
        ¬ j ∈ (moveDorks s srcKey dstKey l).1.notByCat dstKey ∧
        ∀ g ∈ (moveDorks s srcKey dstKey l).1.orGroupsByCat dstKey, ¬ j ∈ g) ∧
      (moveDorks s srcKey dstKey l).1.checkedByCat srcKey =
        remapSet (validSorted src.items l) (s.checkedByCat srcKey)) := by
  constructor
  · intro s srcKey dstKey l h
    unfold moveDorks
    rw [if_pos h]
  · intro s srcKey dstKey l src dst hkey hl hsrc hdst hchk hnot hgrp
    have hguard : ¬ (srcKey = dstKey ∨ l = []) := by
      intro h; rcases h with h | h
      · exact hkey h
      · exact hl h
    have hsrckey : src.key = srcKey := by
      have := List.find?_some hsrc
      simpa using this
    have hdstkey : dst.key = dstKey := by
      have := List.find?_some hdst
      simpa using this
    set idxs := validSorted src.items l with hidxs
    set texts := idxs.map (fun i => (src.items.get? i.toNat).getD "") with htexts
    set items2 := eraseIdxsDesc src.items (idxs.reverse.map Int.toNat) with hitems2
    set cats1 := updateFirst (fun c => c.key = srcKey)
      (fun c => { c with items := items2 }) s.categories with hcats1
    set s1 : AppState := { s with categories := cats1 } with hs1
    set s2 := reindexAfterRemoval s1 srcKey idxs with hs2
    set cats3 := updateFirst (fun c => c.key = dstKey)
      (fun c => { c with items := c.items ++ texts }) s2.categories with hcats3
    set s3 : AppState := { s2 with categories := cats3 } with hs3
    have hmove : moveDorks s srcKey dstKey l = rebuilt s3 := by
      unfold moveDorks
      rw [if_neg hguard, hsrc, hdst]
    rw [hmove]
    have hfield := rebuilt_fst_fields s3
    have hitems2keep : items2 = keepNonRemoved 0 (idxs.map Int.toNat) src.items := by
      rw [hitems2]
      rw [eraseIdxsDesc_eq_keep (idxs.reverse.map Int.toNat)
        (validSorted_desc src.items l) src.items]
      apply keep_congr
      intro n
      rw [List.mem_map, List.mem_map]
      constructor
      · rintro ⟨a, ha, rfl⟩
        exact ⟨a, List.mem_reverse.mp ha, rfl⟩
      · rintro ⟨a, ha, rfl⟩
        exact ⟨a, List.mem_reverse.mpr ha, rfl⟩
    have hs2cats : s2.categories = cats1 := rfl
    have hs3chk : s3.checkedByCat = upd s.checkedByCat srcKey
        (remapSet idxs (s.checkedByCat srcKey)) := rfl
    have hs3not : s3.notByCat = upd s.notByCat srcKey
        (remapSet idxs (s.notByCat srcKey)) := rfl
    have hs3grp : s3.orGroupsByCat = upd s.orGroupsByCat srcKey
        (((s.orGroupsByCat srcKey).map (remapSet idxs)).filter
          (fun g => 2 ≤ g.card)) := rfl
    have hdstne : ¬ dstKey = srcKey := fun h => hkey h.symm
    refine ⟨?_, ?_, ?_, ?_, ?_, ?_, ?_⟩
    · refine ⟨{ src with items := items2 }, ?_, by simp [hsrckey],
        by simp [hitems2keep]⟩
      rw [hfield.1]
      show _ ∈ cats3
      rw [hcats3]
      apply updateFirst_mem_preserved
      · rw [hs2cats, hcats1]
        exact updateFirst_mem_of_find? _ _ s.categories src hsrc
      · simp [hsrckey]
        exact hkey
    · refine ⟨{ dst with items := dst.items ++ texts }, ?_, by simp [hdstkey],
        by simp⟩
      rw [hfield.1]
      show _ ∈ cats3
      rw [hcats3]
      apply updateFirst_mem_of_find?
      rw [hs2cats, hcats1]
      have hfind := find?_updateFirst_ne
        (fun c => decide (c.key = srcKey)) (fun c => decide (c.key = dstKey))
        (fun c => { c with items := items2 })
        (fun c => rfl)
        (by
          intro c hc
          simp at hc ⊢
          rw [hc]
          intro h
          exact hkey h)
        s.categories
      rw [hfind]
      exact hdst
    · rw [hfield.2.2.1, hs3chk]
      exact upd_other _ _ _ _ hdstne
    · rw [hfield.2.2.2.1, hs3not]
      exact upd_other _ _ _ _ hdstne
    · rw [hfield.2.2.2.2.1, hs3grp]
      exact upd_other _ _ _ _ hdstne
    · intro j hj
      rw [hfield.2.2.1, hfield.2.2.2.1, hfield.2.2.2.2.1,
        hs3chk, hs3not, hs3grp]
      rw [upd_other _ _ _ _ hdstne, upd_other _ _ _ _ hdstne,
        upd_other _ _ _ _ hdstne]
      refine ⟨fun hm => ?_, fun hm => ?_, fun g hg hm => ?_⟩
      · have := hchk j hm
        omega
      · have := hnot j hm
        omega
      · have := hgrp g hg j hm
        omega
    · rw [hfield.2.2.1, hs3chk]
      exact upd_same _ _ _

/-- C7 witness: the move theorem applied to the P9 configuration — category
`"a"` holding `["x","y"]` with index 0 checked, moved into `"b"` holding
`["z"]`. -/
theorem c7_move_witness :
    (∃ src2 ∈ (moveDorks moveState "a" "b" [0]).1.categories,
      src2.key = "a" ∧
      src2.items = keepNonRemoved 0
        ((validSorted ["x", "y"] [0]).map Int.toNat) ["x", "y"]) ∧
    (∃ dst2 ∈ (moveDorks moveState "a" "b" [0]).1.categories,
      dst2.key = "b" ∧
      dst2.items = ["z"] ++ (validSorted ["x", "y"] [0]).map
        (fun i => ((["x", "y"] : List String).get? i.toNat).getD "")) ∧
    (moveDorks moveState "a" "b" [0]).1.checkedByCat "b" =
      moveState.checkedByCat "b" ∧
    (moveDorks moveState "a" "b" [0]).1.notByCat "b" = moveState.notByCat "b" ∧
    (moveDorks moveState "a" "b" [0]).1.orGroupsByCat "b" =
      moveState.orGroupsByCat "b" ∧
    (∀ j : Int, ((["z"] : List String).length : Int) ≤ j →
      ¬ j ∈ (moveDorks moveState "a" "b" [0]).1.checkedByCat "b" ∧
      ¬ j ∈ (moveDorks moveState "a" "b" [0]).1.notByCat "b" ∧
      ∀ g ∈ (moveDorks moveState "a" "b" [0]).1.orGroupsByCat "b", ¬ j ∈ g) ∧
    (moveDorks moveState "a" "b" [0]).1.checkedByCat "a" =
      remapSet (validSorted ["x", "y"] [0]) (moveState.checkedByCat "a") :=
  c7_move.2 moveState "a" "b" [0] ⟨"a", "A", ["x", "y"], []⟩
    ⟨"b", "B", ["z"], []⟩ (by decide) (by decide) (by decide) (by decide)
    (by decide) (by decide) (by decide)

/-! ## Claim C1: the index-validity invariant under operation sequences -/

theorem countP_le_card (R : List Int) (hnd : R.Nodup) (p : Int → Bool)
    (S : Finset Int) (hsub : ∀ r ∈ R, p r = true → r ∈ S) :
    (R.countP p : Int) ≤ S.card := by
  rw [List.countP_eq_length_filter]
  have hnd2 : (R.filter p).Nodup := hnd.filter _
  have hs : (R.filter p).toFinset ⊆ S := by
    intro x hx
    rw [List.mem_toFinset, List.mem_filter] at hx
    exact hsub x hx.1 hx.2
  have := Finset.card_le_card hs
  rw [List.toFinset_card_of_nodup hnd2] at this
  exact_mod_cast this

theorem remap_bounds (R : List Int) (n : Int) (hnd : R.Nodup)
    (hval : ∀ r ∈ R, 0 ≤ r ∧ r < n) (i : Int) (hi : ¬ i ∈ R)
    (h0 : 0 ≤ i) (hn : i < n) :
    0 ≤ i - shiftOf R i ∧ i - shiftOf R i < n - R.length := by
  rw [shiftOf_eq_countP]
  have hlow : (R.countP (fun r => decide (r < i)) : Int) ≤ (Finset.Ico (0 : Int) i).card := by
    apply countP_le_card R hnd
    intro r hr hp
    rw [Finset.mem_Ico]
    exact ⟨(hval r hr).1, of_decide_eq_true hp⟩
  have hicard : ((Finset.Ico (0 : Int) i).card : Int) = i := by
    rw [Int.card_Ico]
    omega
  have hsplit : R.length = R.countP (fun r => decide (r < i)) +
      R.countP (fun r => !(decide (r < i))) := by
    rw [List.length_eq_countP_add_countP (fun r => decide (r < i))]
    congr 1
    apply List.countP_congr
    intro a _
    simp
  have hupp : (R.countP (fun r => !(decide (r < i))) : Int) ≤
      (Finset.Ioo i n).card := by
    apply countP_le_card R hnd
    intro r hr hp
    rw [Finset.mem_Ioo]
    have hge : ¬ r < i := by
      intro h
      rw [decide_eq_true h] at hp
      simp at hp
    have hne : ¬ r = i := fun h => hi (h ▸ hr)
    exact ⟨by omega, (hval r hr).2⟩
  have hioo : ((Finset.Ioo i n).card : Int) = n - i - 1 := by
    rw [Int.card_Ioo]
    omega
  constructor
  · omega
  · have : (R.length : Int) = (R.countP (fun r => decide (r < i)) : Int) +
        (R.countP (fun r => !(decide (r < i))) : Int) := by exact_mod_cast hsplit
    omega

theorem eq_of_same_key (s : AppState) (hKeys : KeysNodup s)
    (c d : DorkCategory) (hc : c ∈ s.categories) (hd : d ∈ s.categories)
    (h : c.key = d.key) : c = d := by
  have := List.inj_on_of_nodup_map hKeys
  exact this hc hd h

theorem map_key_set :
    ∀ (cats : List DorkCategory) (n : Nat) (c c' : DorkCategory),
      cats.get? n = some c → c'.key = c.key →
      (cats.set n c').map (fun x => x.key) = cats.map (fun x => x.key) := by
  intro cats
  induction cats with
  | nil => intro n c c' h _; simp at h
  | cons x xs ih =>
    intro n c c' hget hkey
    cases n with
    | zero =>
      simp at hget
      rw [List.set_cons_zero, List.map_cons, List.map_cons, hkey, hget]
    | succ m =>
      rw [List.get?_cons_succ] at hget
      rw [List.set_cons_succ, List.map_cons, List.map_cons,
        ih m c c' hget hkey]

theorem map_key_updateFirst (p : DorkCategory → Bool)
    (f : DorkCategory → DorkCategory) (hf : ∀ c, (f c).key = c.key) :
    ∀ L : List DorkCategory,
      (updateFirst p f L).map (fun x => x.key) = L.map (fun x => x.key) := by
  intro L
  induction L with
  | nil => rfl
  | cons x xs ih =>
    unfold updateFirst
    by_cases hx : p x
    · rw [if_pos hx, List.map_cons, List.map_cons, hf x]
    · rw [if_neg hx, List.map_cons, List.map_cons, ih]

theorem length_eraseIdx_ge :
    ∀ (l : List String) (n : Nat), l.length - 1 ≤ (l.eraseIdx n).length := by
  intro l
  induction l with
  | nil => intro n; simp
  | cons x xs ih =>
    intro n
    cases n with
    | zero => simp
    | succ m =>
      rw [List.eraseIdx_cons_succ]
      have := ih m
      simp at this ⊢
      omega

theorem eraseIdxsDesc_length_ge :
    ∀ (desc : List Nat) (items : List String),
      items.length - desc.length ≤ (eraseIdxsDesc items desc).length := by
  intro desc
  induction desc with
  | nil => intro items; simp [eraseIdxsDesc]
  | cons L rest ih =>
    intro items
    unfold eraseIdxsDesc
    rw [List.foldl_cons]
    have h1 := ih (items.eraseIdx L)
    have h2 := length_eraseIdx_ge items L
    unfold eraseIdxsDesc at h1
    simp at h1 h2 ⊢
    omega

theorem remapSet_bounds (R : List Int) (n : Int) (hnd : R.Nodup)
    (hval : ∀ r ∈ R, 0 ≤ r ∧ r < n) (s : Finset Int)
    (hs : ∀ i ∈ s, 0 ≤ i ∧ i < n) :
    ∀ j ∈ remapSet R s, 0 ≤ j ∧ j < n - R.length := by
  intro j hj
  rw [remapSet, Finset.mem_image] at hj
  rcases hj with ⟨i, hi, rfl⟩
  rw [Finset.mem_filter] at hi
  have hib := hs i hi.1
  exact remap_bounds R n hnd hval i (by simpa using hi.2) hib.1 hib.2

theorem currentCategory_get? (s : AppState) (c : DorkCategory)
    (h : currentCategory s = some c) :
    s.categories.get? s.currentIndex.toNat = some c := by
  unfold currentCategory at h
  split at h
  · exact h
  · exact absurd h (by simp)

theorem IndexValid_rebuilt (s : AppState) (h : IndexValid s) :
    IndexValid (rebuilt s).1 := by
  have hf := rebuilt_fst_fields s
  unfold IndexValid at h ⊢
  rw [hf.1, hf.2.2.1, hf.2.2.2.1, hf.2.2.2.2.1]
  exact h

theorem KeysNodup_rebuilt (s : AppState) (h : KeysNodup s) :
    KeysNodup (rebuilt s).1 := by
  have hf := rebuilt_fst_fields s
  unfold KeysNodup at h ⊢
  rw [hf.1]
  exact h

theorem inv_updChecked (s : AppState) (c : DorkCategory)
    (hc : currentCategory s = some c) (hKeys : KeysNodup s)
    (hInv : IndexValid s) (X : Finset Int)
    (hX : ∀ i ∈ X, 0 ≤ i ∧ i < (c.items.length : Int)) :
    IndexValid { s with checkedByCat := upd s.checkedByCat c.key X } := by
  intro cat hcat
  simp only at hcat ⊢
  by_cases hk : cat.key = c.key
  · have hcc : cat = c :=
      eq_of_same_key s hKeys cat c hcat (currentCategory_mem s c hc) hk
    subst hcc
    rw [upd_same]
    exact ⟨hX, (hInv cat hcat).2.1, (hInv cat hcat).2.2⟩
  · rw [upd_other _ _ _ _ hk]
    exact hInv cat hcat

theorem inv_updNot (s : AppState) (c : DorkCategory)
    (hc : currentCategory s = some c) (hKeys : KeysNodup s)
    (hInv : IndexValid s) (X : Finset Int)
    (hX : ∀ i ∈ X, 0 ≤ i ∧ i < (c.items.length : Int)) :
    IndexValid { s with notByCat := upd s.notByCat c.key X } := by
  intro cat hcat
  simp only at hcat ⊢
  by_cases hk : cat.key = c.key
  · have hcc : cat = c :=
      eq_of_same_key s hKeys cat c hcat (currentCategory_mem s c hc) hk
    subst hcc
    rw [upd_same]
    exact ⟨(hInv cat hcat).1, hX, (hInv cat hcat).2.2⟩
  · rw [upd_other _ _ _ _ hk]
    exact hInv cat hcat

theorem inv_updGroups (s : AppState) (c : DorkCategory)
    (hc : currentCategory s = some c) (hKeys : KeysNodup s)
    (hInv : IndexValid s) (GX : List (Finset Int))
    (hGX : ∀ g ∈ GX, ∀ i ∈ g, 0 ≤ i ∧ i < (c.items.length : Int)) :
    IndexValid { s with orGroupsByCat := upd s.orGroupsByCat c.key GX } := by
  intro cat hcat
  simp only at hcat ⊢
  by_cases hk : cat.key = c.key
  · have hcc : cat = c :=
      eq_of_same_key s hKeys cat c hcat (currentCategory_mem s c hc) hk
    subst hcc
    rw [upd_same]
    exact ⟨(hInv cat hcat).1, (hInv cat hcat).2.1, hGX⟩
  · rw [upd_other _ _ _ _ hk]
    exact hInv cat hcat

theorem inv_updCheckedGroups (s : AppState) (c : DorkCategory)
    (hc : currentCategory s = some c) (hKeys : KeysNodup s)
    (hInv : IndexValid s) (X : Finset Int) (GX : List (Finset Int))
    (hX : ∀ i ∈ X, 0 ≤ i ∧ i < (c.items.length : Int))
    (hGX : ∀ g ∈ GX, ∀ i ∈ g, 0 ≤ i ∧ i < (c.items.length : Int)) :
    IndexValid { s with checkedByCat := upd s.checkedByCat c.key X,
                        orGroupsByCat := upd s.orGroupsByCat c.key GX } := by
  intro cat hcat
  simp only at hcat ⊢
  by_cases hk : cat.key = c.key
  · have hcc : cat = c :=
      eq_of_same_key s hKeys cat c hcat (currentCategory_mem s c hc) hk
    subst hcc
    rw [upd_same, upd_same]
    exact ⟨hX, (hInv cat hcat).2.1, hGX⟩
  · rw [upd_other _ _ _ _ hk, upd_other _ _ _ _ hk]
    exact hInv cat hcat

theorem inv_set_items (s : AppState) (c : DorkCategory)
    (hc : currentCategory s = some c) (hKeys : KeysNodup s)
    (hInv : IndexValid s) (items' : List String)
    (hlen : c.items.length ≤ items'.length) :
    IndexValid
      { s with categories := (s.categories.set s.currentIndex.toNat
          ({ c with items := items' })) } := by
  intro cat hcat
  simp only at hcat
  rcases List.mem_or_eq_of_mem_set hcat with hcat2 | hcat2
  · exact hInv cat hcat2
  · subst hcat2
    have hb := hInv c (currentCategory_mem s c hc)
    simp only
    refine ⟨fun i hi => ?_, fun i hi => ?_, fun g hg i hi => ?_⟩
    · have := hb.1 i hi
      constructor
      · exact this.1
      · have h2 := this.2
        have : (c.items.length : Int) ≤ (items'.length : Int) := by
          exact_mod_cast hlen
        omega
    · have := hb.2.1 i hi
      refine ⟨this.1, ?_⟩
      have h2 := this.2
      have : (c.items.length : Int) ≤ (items'.length : Int) := by
        exact_mod_cast hlen
      omega
    · have := hb.2.2 g hg i hi
      refine ⟨this.1, ?_⟩
      have h2 := this.2
      have : (c.items.length : Int) ≤ (items'.length : Int) := by
        exact_mod_cast hlen
      omega

theorem updateFirst_mem_cases (p : DorkCategory → Bool)
    (f : DorkCategory → DorkCategory) :
    ∀ (L : List DorkCategory) (x : DorkCategory), x ∈ updateFirst p f L →
      x ∈ L ∨ ∃ d ∈ L, p d = true ∧ x = f d := by
  intro L
  induction L with
  | nil => intro x hx; simp [updateFirst] at hx
  | cons y ys ih =>
    intro x hx
    unfold updateFirst at hx
    by_cases hy : p y
    · rw [if_pos hy] at hx
      rcases List.mem_cons.mp hx with hx | hx
      · exact Or.inr ⟨y, by simp, hy, hx⟩
      · exact Or.inl (by simp [hx])
    · rw [if_neg hy] at hx
      rcases List.mem_cons.mp hx with hx | hx
      · exact Or.inl (by simp [hx])
      · rcases ih x hx with h | ⟨d, hd, hpd, hxd⟩
        · exact Or.inl (by simp [h])
        · exact Or.inr ⟨d, by simp [hd], hpd, hxd⟩

theorem inv_toggleChecked (s : AppState) (i : Int) (hInv : IndexValid s)
    (hKeys : KeysNodup s) (hArgs : ValidArgs (Op.togCheck i) s) :
    IndexValid (toggleChecked s i).1 := by
  unfold toggleChecked
  cases hc : currentCategory s with
  | none => exact hInv
  | some c =>
    unfold ValidArgs at hArgs
    rw [hc] at hArgs
    apply IndexValid_rebuilt
    have hb := hInv c (currentCategory_mem s c hc)
    apply inv_updChecked s c hc hKeys hInv
    intro j hj
    by_cases hmem : i ∈ s.checkedByCat c.key
    · rw [if_pos hmem] at hj
      exact hb.1 j (Finset.mem_of_mem_erase hj)
    · rw [if_neg hmem] at hj
      rcases Finset.mem_insert.mp hj with hj | hj
      · subst hj; exact hArgs
      · exact hb.1 j hj

theorem inv_setChecked (s : AppState) (l : List Int) (hInv : IndexValid s)
    (hKeys : KeysNodup s) (hArgs : ValidArgs (Op.setCheck l) s) :
    IndexValid (setChecked s l).1 := by
  unfold setChecked
  cases hc : currentCategory s with
  | none => exact hInv
  | some c =>
    unfold ValidArgs at hArgs
    rw [hc] at hArgs
    apply IndexValid_rebuilt
    apply inv_updChecked s c hc hKeys hInv
    intro j hj
    exact hArgs j (List.mem_toFinset.mp hj)

theorem inv_toggleNot (s : AppState) (i : Int) (hInv : IndexValid s)
    (hKeys : KeysNodup s) (hArgs : ValidArgs (Op.togNot i) s) :
    IndexValid (toggleNot s i).1 := by
  unfold toggleNot
  cases hc : currentCategory s with
  | none => exact hInv
  | some c =>
    unfold ValidArgs at hArgs
    rw [hc] at hArgs
    apply IndexValid_rebuilt
    have hb := hInv c (currentCategory_mem s c hc)
    apply inv_updNot s c hc hKeys hInv
    intro j hj
    by_cases hmem : i ∈ s.notByCat c.key
    · rw [if_pos hmem] at hj
      exact hb.2.1 j (Finset.mem_of_mem_erase hj)
    · rw [if_neg hmem] at hj
      rcases Finset.mem_insert.mp hj with hj | hj
      · subst hj; exact hArgs
      · exact hb.2.1 j hj

theorem inv_clearGroups (s : AppState) (hInv : IndexValid s)
    (hKeys : KeysNodup s) :
    IndexValid (clearGroups s).1 := by
  unfold clearGroups
  cases hc : currentCategory s with
  | none => exact hInv
  | some c =>
    apply IndexValid_rebuilt
    apply inv_updGroups s c hc hKeys hInv
    intro g hg
    simp at hg

theorem inv_makeOrGroup (s : AppState) (l : List Int) (hInv : IndexValid s)
    (hKeys : KeysNodup s) (hArgs : ValidArgs (Op.mkGroup l) s) :
    IndexValid (makeOrGroup s l).1 := by
  unfold makeOrGroup
  cases hc : currentCategory s with
  | none => exact hInv
  | some c =>
    unfold ValidArgs at hArgs
    rw [hc] at hArgs
    show IndexValid ((if l.length < 2 then (s, false)
      else rebuilt { s with
        checkedByCat := upd s.checkedByCat c.key
          (s.checkedByCat c.key ∪ l.toFinset),
        orGroupsByCat := upd s.orGroupsByCat c.key
          (normalizeGroups (s.orGroupsByCat c.key ++ [l.toFinset])) }).1)
    split
    · exact hInv
    · apply IndexValid_rebuilt
      have hb := hInv c (currentCategory_mem s c hc)
      apply inv_updCheckedGroups s c hc hKeys hInv
      · intro j hj
        rcases Finset.mem_union.mp hj with hj | hj
        · exact hb.1 j hj
        · exact hArgs j (List.mem_toFinset.mp hj)
      · intro g hg j hj
        have hres := normalizeGroups_resolution
          (s.orGroupsByCat c.key ++ [l.toFinset])
        have hgrown := hres.2.2.1 g hg
        rcases grown_mem_union _ g hgrown j hj with ⟨g0, hg0, hjg0⟩
        rw [List.mem_filter] at hg0
        rcases List.mem_append.mp hg0.1 with hg0m | hg0m
        · exact hb.2.2 g0 hg0m j hjg0
        · have hg0eq : g0 = l.toFinset := by simpa using hg0m
          subst hg0eq
          exact hArgs j (List.mem_toFinset.mp hjg0)

theorem inv_addDork (s : AppState) (t : String) (hInv : IndexValid s)
    (hKeys : KeysNodup s) :
    IndexValid (addDork s t).1 := by
  unfold addDork
  cases hc : currentCategory s with
  | none => exact hInv
  | some c =>
    show IndexValid ((if pyStrip t = "" then (s, false)
      else rebuilt { s with
        categories := s.categories.set s.currentIndex.toNat
          { c with items := c.items ++ [pyStrip t] } }).1)
    split
    · exact hInv
    · apply IndexValid_rebuilt
      apply inv_set_items s c hc hKeys hInv
      simp

theorem inv_renameDork (s : AppState) (i : Int) (t : String)
    (hInv : IndexValid s) (hKeys : KeysNodup s) :
    IndexValid (renameDork s i t).1 := by
  unfold renameDork
  cases hc : currentCategory s with
  | none => exact hInv
  | some c =>
    show IndexValid ((if 0 ≤ i ∧ i < (c.items.length : Int) then
        if pyStrip t = "" ∨ c.items.get? i.toNat = some (pyStrip t) then
          (s, false)
        else rebuilt { s with
          categories := s.categories.set s.currentIndex.toNat
            { c with items := c.items.set i.toNat (pyStrip t) } }
      else (s, false)).1)
    split
    · split
      · exact hInv
      · apply IndexValid_rebuilt
        apply inv_set_items s c hc hKeys hInv
        simp
    · exact hInv

theorem inv_deleteDorks (s : AppState) (l : List Int) (hInv : IndexValid s)
    (hKeys : KeysNodup s) (hArgs : ValidArgs (Op.deleteD l) s) :
    IndexValid (deleteDorks s l).1 := by
  unfold deleteDorks
  cases hc : currentCategory s with
  | none => exact hInv
  | some c =>
    unfold ValidArgs at hArgs
    rw [hc] at hArgs
    have hArgs2 : l.Nodup ∧ ∀ i ∈ l, inRange c.items i := hArgs
    obtain ⟨hndl, hvall⟩ := hArgs2
    show IndexValid ((if l = [] then (s, false)
      else rebuilt (reindexAfterRemoval
        ({ s with categories := (s.categories.set s.currentIndex.toNat
            ({ c with items := (eraseIdxsDesc c.items
              ((validSorted c.items l).reverse.map Int.toNat)) })) })
        c.key (pySorted l))).1)
    split
    · exact hInv
    · apply IndexValid_rebuilt
      have hperm : List.Perm (pySorted l) l := List.perm_insertionSort _ l
      have hndR : (pySorted l).Nodup := hperm.nodup_iff.mpr hndl
      have hvalR : ∀ r ∈ pySorted l, 0 ≤ r ∧ r < (c.items.length : Int) :=
        fun r hr => hvall r (hperm.mem_iff.mp hr)
      have hfilter : l.filter (fun i => decide (inRange c.items i)) = l :=
        List.filter_eq_self.mpr (fun a ha => decide_eq_true (hvall a ha))
      have hids : validSorted c.items l = pySorted l := by
        unfold validSorted
        rw [hfilter, List.dedup_eq_self.mpr hndl]
      rw [hids]
      set R := pySorted l with hR
      set items2 := eraseIdxsDesc c.items (R.reverse.map Int.toNat) with hitems2
      have hlen2 : c.items.length - R.length ≤ items2.length := by
        rw [hitems2]
        have := eraseIdxsDesc_length_ge (R.reverse.map Int.toNat) c.items
        simpa using this
      have hb := hInv c (currentCategory_mem s c hc)
      unfold reindexAfterRemoval
      intro cat hcat
      simp only at hcat ⊢
      by_cases hk : cat.key = c.key
      · have hbound : (c.items.length : Int) - R.length ≤
            (cat.items.length : Int) := by
          rcases List.mem_or_eq_of_mem_set hcat with h2 | h2
          · have hcc : cat = c := eq_of_same_key s hKeys cat c h2
              (currentCategory_mem s c hc) hk
            subst hcc
            omega
          · rw [h2]
            simp only
            omega
        rw [hk]
        refine ⟨?_, ?_, ?_⟩
        · rw [upd_same]
          intro j hj
          have := remapSet_bounds R (c.items.length : Int) hndR hvalR
            (s.checkedByCat c.key) hb.1 j hj
          omega
        · rw [upd_same]
          intro j hj
          have := remapSet_bounds R (c.items.length : Int) hndR hvalR
            (s.notByCat c.key) hb.2.1 j hj
          omega
        · rw [upd_same]
          intro g hg j hj
          rw [List.mem_filter] at hg
          rcases List.mem_map.mp hg.1 with ⟨g0, hg0, rfl⟩
          have := remapSet_bounds R (c.items.length : Int) hndR hvalR
            g0 (hb.2.2 g0 hg0) j hj
          omega
      · have hcat2 : cat ∈ s.categories := by
          rcases List.mem_or_eq_of_mem_set hcat with h2 | h2
          · exact h2
          · exact absurd (by rw [h2]) hk
        refine ⟨?_, ?_, ?_⟩
        · rw [upd_other _ _ _ _ hk]
          exact (hInv cat hcat2).1
        · rw [upd_other _ _ _ _ hk]
          exact (hInv cat hcat2).2.1
        · rw [upd_other _ _ _ _ hk]
          exact (hInv cat hcat2).2.2

theorem inv_moveDorks (s : AppState) (srcKey dstKey : String) (l : List Int)
    (hInv : IndexValid s) (hKeys : KeysNodup s) :
    IndexValid (moveDorks s srcKey dstKey l).1 := by
  by_cases hguard : srcKey = dstKey ∨ l = []
  · unfold moveDorks
    rw [if_pos hguard]
    exact hInv
  · cases hsrc : s.categories.find? (fun c => c.key = srcKey) with
    | none =>
      unfold moveDorks
      rw [if_neg hguard, hsrc]
      exact hInv
    | some src =>
      cases hdst : s.categories.find? (fun c => c.key = dstKey) with
      | none =>
        unfold moveDorks
        rw [if_neg hguard, hsrc, hdst]
        exact hInv
      | some dst =>
        have hsrckey : src.key = srcKey := by
          have := List.find?_some hsrc
          simpa using this
        have hsrcmem : src ∈ s.categories := List.mem_of_find?_eq_some hsrc
        have hne : ¬ srcKey = dstKey := fun h => hguard (Or.inl h)
        set idxs := validSorted src.items l with hidxs
        set texts := idxs.map (fun i => (src.items.get? i.toNat).getD "")
          with htexts
        set items2 := eraseIdxsDesc src.items (idxs.reverse.map Int.toNat)
          with hitems2
        set cats1 := updateFirst (fun c => c.key = srcKey)
          (fun c => { c with items := items2 }) s.categories with hcats1
        set s1 : AppState := { s with categories := cats1 } with hs1
        set s2 := reindexAfterRemoval s1 srcKey idxs with hs2
        set cats3 := updateFirst (fun c => c.key = dstKey)
          (fun c => { c with items := c.items ++ texts }) s2.categories
          with hcats3
        set s3 : AppState := { s2 with categories := cats3 } with hs3
        have hmove : moveDorks s srcKey dstKey l = rebuilt s3 := by
          unfold moveDorks
          rw [if_neg hguard, hsrc, hdst]
        rw [hmove]
        apply IndexValid_rebuilt
        have hndR : idxs.Nodup := validSorted_nodup src.items l
        have hvalR : ∀ r ∈ idxs, 0 ≤ r ∧ r < (src.items.length : Int) :=
          fun r hr => ((validSorted_mem src.items l r).mp hr).2
        have hlen2 : src.items.length - idxs.length ≤ items2.length := by
          rw [hitems2]
          have := eraseIdxsDesc_length_ge (idxs.reverse.map Int.toNat) src.items
          simpa using this
        have hbsrc := hInv src hsrcmem
        rw [hsrckey] at hbsrc
        have hs3chk : s3.checkedByCat = upd s.checkedByCat srcKey
            (remapSet idxs (s.checkedByCat srcKey)) := rfl
        have hs3not : s3.notByCat = upd s.notByCat srcKey
            (remapSet idxs (s.notByCat srcKey)) := rfl
        have hs3grp : s3.orGroupsByCat = upd s.orGroupsByCat srcKey
            (((s.orGroupsByCat srcKey).map (remapSet idxs)).filter
              (fun g => 2 ≤ g.card)) := rfl
        have hs3cats : s3.categories = cats3 := rfl
        have hs2cats : s2.categories = cats1 := rfl
        intro cat hcat
        rw [hs3chk, hs3not, hs3grp]
        have hcat3 : cat ∈ cats3 := hs3cats ▸ hcat
        rw [hcats3] at hcat3
        rcases updateFirst_mem_cases _ _ s2.categories cat hcat3
          with hA | ⟨d, hd, hpd, hxd⟩
        · rw [hs2cats, hcats1] at hA
          rcases updateFirst_mem_cases _ _ s.categories cat hA
            with hB | ⟨e, he, hpe, hxe⟩
          · by_cases hk : cat.key = srcKey
            · have hcc : cat = src := eq_of_same_key s hKeys cat src hB
                hsrcmem (by rw [hk, hsrckey])
              subst hcc
              rw [hsrckey, upd_same, upd_same, upd_same]
              refine ⟨?_, ?_, ?_⟩
              · intro j hj
                have := remapSet_bounds idxs (cat.items.length : Int) hndR
                  hvalR (s.checkedByCat srcKey) hbsrc.1 j hj
                omega
              · intro j hj
                have := remapSet_bounds idxs (cat.items.length : Int) hndR
                  hvalR (s.notByCat srcKey) hbsrc.2.1 j hj
                omega
              · intro g hg j hj
                rw [List.mem_filter] at hg
                rcases List.mem_map.mp hg.1 with ⟨g0, hg0, rfl⟩
                have := remapSet_bounds idxs (cat.items.length : Int) hndR
                  hvalR g0 (hbsrc.2.2 g0 hg0) j hj
                omega
            · rw [upd_other _ _ _ _ hk, upd_other _ _ _ _ hk,
                upd_other _ _ _ _ hk]
              exact hInv cat hB
          · have hek : e.key = srcKey := of_decide_eq_true hpe
            have hee : e = src := eq_of_same_key s hKeys e src he hsrcmem
              (by rw [hek, hsrckey])
            rw [hee] at hxe
            subst hxe
            simp only
            rw [hsrckey, upd_same, upd_same, upd_same]
            refine ⟨?_, ?_, ?_⟩
            · intro j hj
              have := remapSet_bounds idxs (src.items.length : Int) hndR
                hvalR (s.checkedByCat srcKey) hbsrc.1 j hj
              omega
            · intro j hj
              have := remapSet_bounds idxs (src.items.length : Int) hndR
                hvalR (s.notByCat srcKey) hbsrc.2.1 j hj
              omega
            · intro g hg j hj
              rw [List.mem_filter] at hg
              rcases List.mem_map.mp hg.1 with ⟨g0, hg0, rfl⟩
              have := remapSet_bounds idxs (src.items.length : Int) hndR
                hvalR g0 (hbsrc.2.2 g0 hg0) j hj
              omega
        · have hdk : d.key = dstKey := of_decide_eq_true hpd
          rw [hs2cats, hcats1] at hd
          rcases updateFirst_mem_cases _ _ s.categories d hd
            with hB2 | ⟨e, he, hpe, hxe2⟩
          · have hck : cat.key = dstKey := by rw [hxd]; exact hdk
            have hk : ¬ cat.key = srcKey := by
              rw [hck]
              intro h
              exact hne h.symm
            rw [upd_other _ _ _ _ hk, upd_other _ _ _ _ hk,
              upd_other _ _ _ _ hk]
            have hbd := hInv d hB2
            have hkk : cat.key = d.key := by rw [hxd]
            rw [hkk]
            subst hxd
            simp only
            refine ⟨?_, ?_, ?_⟩
            · intro j hj
              have := hbd.1 j hj
              rw [List.length_append]
              push_cast
              omega
            · intro j hj
              have := hbd.2.1 j hj
              rw [List.length_append]
              push_cast
              omega
            · intro g hg j hj
              have := hbd.2.2 g hg j hj
              rw [List.length_append]
              push_cast
              omega
          · exfalso
            have hek : e.key = srcKey := of_decide_eq_true hpe
            apply hne
            rw [← hdk, hxe2, ← hek]

theorem keys_set_items (s : AppState) (c : DorkCategory)
    (hn : s.categories.get? s.currentIndex.toNat = some c)
    (items' : List String) (hKeys : KeysNodup s) :
    KeysNodup { s with categories := (s.categories.set s.currentIndex.toNat
      ({ c with items := items' })) } := by
  unfold KeysNodup
  simp only
  rw [map_key_set s.categories s.currentIndex.toNat c
    ({ c with items := items' }) hn rfl]
  exact hKeys

theorem keys_moveDorks (s : AppState) (srcKey dstKey : String) (l : List Int)
    (hKeys : KeysNodup s) : KeysNodup (moveDorks s srcKey dstKey l).1 := by
  by_cases hguard : srcKey = dstKey ∨ l = []
  · unfold moveDorks
    rw [if_pos hguard]
    exact hKeys
  · cases hsrc : s.categories.find? (fun c => c.key = srcKey) with
    | none =>
      unfold moveDorks
      rw [if_neg hguard, hsrc]
      exact hKeys
    | some src =>
      cases hdst : s.categories.find? (fun c => c.key = dstKey) with
      | none =>
        unfold moveDorks
        rw [if_neg hguard, hsrc, hdst]
        exact hKeys
      | some dst =>
        set idxs := validSorted src.items l with hidxs
        set texts := idxs.map (fun i => (src.items.get? i.toNat).getD "")
          with htexts
        set items2 := eraseIdxsDesc src.items (idxs.reverse.map Int.toNat)
          with hitems2
        set cats1 := updateFirst (fun c => c.key = srcKey)
          (fun c => { c with items := items2 }) s.categories with hcats1
        set s1 : AppState := { s with categories := cats1 } with hs1
        set s2 := reindexAfterRemoval s1 srcKey idxs with hs2
        set cats3 := updateFirst (fun c => c.key = dstKey)
          (fun c => { c with items := c.items ++ texts }) s2.categories
          with hcats3
        set s3 : AppState := { s2 with categories := cats3 } with hs3
        have hmove : moveDorks s srcKey dstKey l = rebuilt s3 := by
          unfold moveDorks
          rw [if_neg hguard, hsrc, hdst]
        rw [hmove]
        apply KeysNodup_rebuilt
        have hs3cats : s3.categories = cats3 := rfl
        have hs2cats : s2.categories = cats1 := rfl
        unfold KeysNodup
        rw [hs3cats, hcats3, hs2cats, hcats1,
          map_key_updateFirst (fun c => decide (c.key = dstKey))
            (fun c => { c with items := c.items ++ texts }) (fun c => rfl),
          map_key_updateFirst (fun c => decide (c.key = srcKey))
            (fun c => { c with items := items2 }) (fun c => rfl)]
        exact hKeys

theorem keys_step (op : Op) (s : AppState) (hKeys : KeysNodup s) :
    KeysNodup (step op s) := by
  cases op with
  | togCheck i =>
    show KeysNodup (toggleChecked s i).1
    unfold toggleChecked
    split
    · exact hKeys
    · exact KeysNodup_rebuilt _ hKeys
  | setCheck l =>
    show KeysNodup (setChecked s l).1
    unfold setChecked
    split
    · exact hKeys
    · exact KeysNodup_rebuilt _ hKeys
  | togNot i =>
    show KeysNodup (toggleNot s i).1
    unfold toggleNot
    split
    · exact hKeys
    · exact KeysNodup_rebuilt _ hKeys
  | mkGroup l =>
    show KeysNodup (makeOrGroup s l).1
    unfold makeOrGroup
    split
    · exact hKeys
    · split
      · exact hKeys
      · exact KeysNodup_rebuilt _ hKeys
  | clrGroups =>
    show KeysNodup (clearGroups s).1
    unfold clearGroups
    split
    · exact hKeys
    · exact KeysNodup_rebuilt _ hKeys
  | addD t =>
    show KeysNodup (addDork s t).1
    unfold addDork
    split
    · exact hKeys
    · next c hc =>
      show KeysNodup ((if pyStrip t = "" then (s, false)
        else rebuilt { s with
          categories := (s.categories.set s.currentIndex.toNat
            ({ c with items := c.items ++ [pyStrip t] })) }).1)
      split
      · exact hKeys
      · exact KeysNodup_rebuilt _
          (keys_set_items s c (currentCategory_get? s c hc) _ hKeys)
  | renameD i t =>
    show KeysNodup (renameDork s i t).1
    unfold renameDork
    split
    · exact hKeys
    · next c hc =>
      split
      · show KeysNodup ((if pyStrip t = "" ∨
            c.items.get? i.toNat = some (pyStrip t) then (s, false)
          else rebuilt { s with
            categories := (s.categories.set s.currentIndex.toNat
              ({ c with items := c.items.set i.toNat (pyStrip t) })) }).1)
        split
        · exact hKeys
        · exact KeysNodup_rebuilt _
            (keys_set_items s c (currentCategory_get? s c hc) _ hKeys)
      · exact hKeys
  | deleteD l =>
    show KeysNodup (deleteDorks s l).1
    unfold deleteDorks
    split
    · exact hKeys
    · next c hc =>
      split
      · exact hKeys
      · exact KeysNodup_rebuilt _
          (keys_set_items s c (currentCategory_get? s c hc) _ hKeys)
  | moveD src dst l =>
    exact keys_moveDorks s src dst l hKeys

theorem inv_step (op : Op) (s : AppState) (hInv : IndexValid s)
    (hKeys : KeysNodup s) (hArgs : ValidArgs op s) :
    IndexValid (step op s) := by
  cases op with
  | togCheck i => exact inv_toggleChecked s i hInv hKeys hArgs
  | setCheck l => exact inv_setChecked s l hInv hKeys hArgs
  | togNot i => exact inv_toggleNot s i hInv hKeys hArgs
  | mkGroup l => exact inv_makeOrGroup s l hInv hKeys hArgs
  | clrGroups => exact inv_clearGroups s hInv hKeys
  | addD t => exact inv_addDork s t hInv hKeys
  | renameD i t => exact inv_renameDork s i t hInv hKeys
  | deleteD l => exact inv_deleteDorks s l hInv hKeys hArgs
  | moveD src dst l => exact inv_moveDorks s src dst l hInv hKeys

/-- Counterexample to claim C1 as stated: `toggle_not 5` on a four-item
category completes without raising and stores the out-of-range index `5` in
the negated set, so the invariant does not hold after every operation of
every sequence. -/
theorem c1_counterexample :
    (toggleNot exState 5).2 = false ∧ ¬ IndexValid (toggleNot exState 5).1 := by
  decide

/-- Claim C1 (amended): for every sequence of the engine's mutating
operations, starting from a state satisfying index validity (I1) and unique
category keys (I3), the index-validity invariant holds after each operation
completes — provided the index-taking selection operations
(`toggle_checked`, `toggle_not`, `set_checked`, `make_or_group`) receive
in-range indices and `delete_dorks` receives duplicate-free in-range
indices; `clear_groups`, `add_dork`, `rename_dork` and `move_dorks`
preserve the invariant for arbitrary arguments. -/
theorem c1_amended :
    ∀ (ops : List Op) (s : AppState), IndexValid s → KeysNodup s →
      ValidSeq ops s → IndexValid (run ops s) := by
  intro ops
  induction ops with
  | nil => intro s hInv _ _; exact hInv
  | cons op rest ih =>
    intro s hInv hKeys hSeq
    show IndexValid (run rest (step op s))
    exact ih (step op s) (inv_step op s hInv hKeys hSeq.1)
      (keys_step op s hKeys) hSeq.2

/-- C1 witness: a five-operation sequence (toggle, group creation,
deletion, insertion, negation toggle) on the concrete example state keeps
every stored index in range. -/
theorem c1_amended_witness :
    IndexValid (run [Op.togCheck 1, Op.mkGroup [0, 2], Op.deleteD [1, 3],
      Op.addD "new", Op.togNot 0] exState) :=
  c1_amended _ exState (by decide) (by decide) (by decide)

end DorkBuilder
